import Mathlib

/-!
Verification of the project file-tree data model, history (undo/redo) machinery,
mutation dispatch handlers, AI batch-edit application and search engine of the
browser IDE, as implemented in `src/components/IDEView.tsx`, the project
utilities module (`src/unnamed/part_004`, exporting `findFileByPath`,
`addOrUpdateFileByPath`, `deleteNodeByPath`, `addNodeToTree`, `searchInProject`)
and `src/lib/ai.ts`.

The TypeScript functions are translated into executable Lean definitions:
- JavaScript strings are Lean `String`s; `String.prototype.startsWith`,
  `split` and `substring`-based helpers are modelled character-wise on
  `String.data`.
- The `FileNode` interface (`src/types.ts`) carries `name`, `type`, `path`,
  optional `children` and optional `content`.  The Lean `FileNode` carries all
  fields; an absent `children`/`content` is modelled by `[]`/`""`, which is
  observationally equivalent in every translated function (each use site either
  guards on `type` or treats the empty value exactly like the absent one).
- The component state holding the tree, the undo history and its cursor
  (`projectStructure`, `history`, `historyIndex`) is a Lean structure; the
  cursor is an `Int` because JavaScript arithmetic on it can and does go
  negative, and `history[i]` for a bad index is modelled by an `Option`.
- The question whether a mutator writes to the object graph of its input is
  modelled by a small heap semantics at the end of the definitions section:
  nodes live in an address-indexed store and the JSON-deep-copy the source
  performs is an allocation of fresh addresses.
-/

set_option maxHeartbeats 1600000

/-- Tag of a tree node: source field `type` with values `'file' | 'folder'`
(`src/types.ts`). -/
inductive NodeType where
  | file
  | folder
deriving DecidableEq, Repr

/-- Source interface `FileNode` of `src/types.ts`: `name`, `type`, `path`,
`children?`, `content?`.  Absent optional fields are modelled by `[]` / `""`. -/
inductive FileNode where
  | mk (name : String) (ntype : NodeType) (path : String) (children : List FileNode) (content : String)
deriving Repr

/-- Field accessor for `FileNode.name`. -/
def FileNode.name : FileNode → String
  | .mk n _ _ _ _ => n

/-- Field accessor for the `type` field (named `ntype` here since `type` is reserved). -/
def FileNode.ntype : FileNode → NodeType
  | .mk _ ty _ _ _ => ty

/-- Field accessor for `FileNode.path`. -/
def FileNode.path : FileNode → String
  | .mk _ _ p _ _ => p

/-- Field accessor for `FileNode.children`. -/
def FileNode.children : FileNode → List FileNode
  | .mk _ _ _ cs _ => cs

/-- Field accessor for `FileNode.content`. -/
def FileNode.content : FileNode → String
  | .mk _ _ _ _ c => c

/-- JavaScript `s.startsWith(p)`, character-wise. -/
def jsStartsWith (s p : String) : Bool :=
  p.data.isPrefixOf s.data

/-- JavaScript `String.prototype.split(sep)` on character lists: splits into the
(always nonempty) list of separator-free groups. -/
def splitChars (sep : Char) : List Char → List (List Char)
  | [] => [[]]
  | c :: rest =>
    match splitChars sep rest with
    | [] => [[]]
    | g :: gs => if c = sep then [] :: g :: gs else (c :: g) :: gs

/-- The path-segment list used by `addOrUpdateFileByPath`:
`path.split('/').filter(p => p)` — split on `'/'` and drop empty groups. -/
def splitPath (path : String) : List String :=
  ((splitChars '/' path.data).map (fun l => (⟨l⟩ : String))).filter (fun s => s ≠ "")

/-- JavaScript `content.split('\n')` producing the list of lines. -/
def jsSplitLines (content : String) : List String :=
  (splitChars '\n' content.data).map (fun l => (⟨l⟩ : String))

/-- JavaScript `path.substring(0, path.lastIndexOf('/'))` (the parent-directory
prefix; `""` when the string has no slash, since `substring` clamps `-1` to `0`). -/
def jsParentDir (path : String) : String :=
  ⟨(((path.data.reverse.dropWhile (fun c => c ≠ '/')).drop 1)).reverse⟩

/-- Source `findFileByPath` (project utilities): scans the node list in order;
returns a node whose `path` field equals the query, and descends into a folder
whose `path ++ "/"` is a prefix of the query, continuing with the remaining
siblings when the descent fails. -/
def findFileByPath : List FileNode → String → Option FileNode
  | [], _ => none
  | FileNode.mk n ty p cs c :: rest, q =>
    if p = q then some (FileNode.mk n ty p cs c)
    else if ty = NodeType.folder && jsStartsWith q (p ++ "/") then
      match findFileByPath cs q with
      | some found => some found
      | none => findFileByPath rest q
    else findFileByPath rest q

/-- Source `deleteNodeByPath`: removes every node of the current level whose
`path` field equals the target (`filter`), and rebuilds folders whose
`path ++ "/"` prefixes the target with their children recursively deleted
(`map` with object spread).  The filter-then-map of the source is fused into
one structural pass, which builds the same list. -/
def deleteNodeByPath : List FileNode → String → List FileNode
  | [], _ => []
  | FileNode.mk n ty p cs c :: rest, path =>
    if p = path then deleteNodeByPath rest path
    else
      (if ty = NodeType.folder && jsStartsWith path (p ++ "/") then
        FileNode.mk n ty p (deleteNodeByPath cs path) c
      else
        FileNode.mk n ty p cs c) :: deleteNodeByPath rest path

/-- Replaces the first node satisfying `q` by its image under `f`, keeping
every other node and all positions: the pure rendering of the source pattern
"find the index/object of the first match and update it in place". -/
def replaceFirst (q : FileNode → Bool) (f : FileNode → FileNode) : List FileNode → List FileNode
  | [] => []
  | nd :: rest => if q nd then f nd :: rest else nd :: replaceFirst q f rest

/-- Final step of `addOrUpdateFileByPath`: at the resolved parent level,
`findIndex(node => node.name === fileName)` — the first node with that name,
of either type — gets its `content` overwritten in place; otherwise a fresh
file node with path `currentPath + '/' + fileName` is pushed at the end. -/
def upsertFinal (level : List FileNode) (curPath fileName content : String) : List FileNode :=
  match level.find? (fun nd => nd.name == fileName) with
  | some _ =>
    replaceFirst (fun nd => nd.name == fileName)
      (fun nd => FileNode.mk nd.name nd.ntype nd.path nd.children content) level
  | none => level ++ [FileNode.mk fileName NodeType.file (curPath ++ "/" ++ fileName) [] content]

/-- Directory walk of `addOrUpdateFileByPath` over the intermediate path parts:
at each level the first *folder* with the segment's name
(`currentChildren.find(node => node.name === part && node.type === 'folder')`)
is entered and updated in place; when none exists a fresh folder with path
`currentPath + '/' + part` is pushed at the end and entered. -/
def upsertTree (level : List FileNode) (curPath : String) : List String → String → String → List FileNode
  | [], fileName, content => upsertFinal level curPath fileName content
  | part :: rest, fileName, content =>
    let curPath' := curPath ++ "/" ++ part
    match level.find? (fun nd => nd.name == part && nd.ntype == NodeType.folder) with
    | some found =>
      replaceFirst (fun nd => nd.name == part && nd.ntype == NodeType.folder)
        (fun nd => FileNode.mk nd.name nd.ntype nd.path
          (upsertTree found.children curPath' rest fileName content) nd.content) level
    | none =>
      level ++ [FileNode.mk part NodeType.folder curPath' (upsertTree [] curPath' rest fileName content) ""]

/-- Source `addOrUpdateFileByPath(nodes, path, newContent)`: deep-copies the
input, splits the path into nonempty segments, pops the last segment as the
file name (returning the copy unchanged when there is none), then walks and
updates as in `upsertTree`/`upsertFinal`.  The deep copy makes the function
observationally pure, which is what this translation returns; the heap model
below accounts for the copy itself. -/
def addOrUpdateFileByPath (nodes : List FileNode) (path newContent : String) : List FileNode :=
  let pathParts := splitPath path
  match pathParts.getLast? with
  | none => nodes
  | some fileName => upsertTree nodes "" pathParts.dropLast fileName newContent

/-- Rebuilds the tree along the exact search route of `findFileByPath`,
applying `f` to the node that `findFileByPath` returns; identity when the path
is absent.  This renders the source pattern "mutate the object returned by
`findFileByPath` inside the fresh deep copy" as a pure update. -/
def updateAtPath : List FileNode → String → (FileNode → FileNode) → List FileNode
  | [], _, _ => []
  | FileNode.mk n ty p cs c :: rest, q, f =>
    if p = q then f (FileNode.mk n ty p cs c) :: rest
    else if ty = NodeType.folder && jsStartsWith q (p ++ "/") then
      if (findFileByPath cs q).isSome then
        FileNode.mk n ty p (updateAtPath cs q f) c :: rest
      else
        FileNode.mk n ty p cs c :: updateAtPath rest q f
    else FileNode.mk n ty p cs c :: updateAtPath rest q f

/-- The two failure modes of `addNodeToTree`: `throw` of
`"... already exists."` and of `"Parent directory ... not found."`. -/
inductive AddNodeError where
  | duplicateName
  | parentNotFound
deriving DecidableEq, Repr

/-- Source `addNodeToTree(nodes, parentPath, nodeName, type)`: after the deep
copy, throws `duplicateName` when `findFileByPath` locates a node at
`newNodePath`; a root-level insert pushes onto the top list; otherwise the
parent node located by `findFileByPath` must be a folder and receives the new
child (`updateAtPath` reproduces that in-place push), else `parentNotFound`. -/
def addNodeToTree (nodes : List FileNode) (parentPath nodeName : String) (ty : NodeType) :
    Except AddNodeError (List FileNode) :=
  let newNodePath := if parentPath = "/" then "/" ++ nodeName else parentPath ++ "/" ++ nodeName
  if (findFileByPath nodes newNodePath).isSome then
    .error .duplicateName
  else if parentPath = "/" then
    .ok (nodes ++ [FileNode.mk nodeName ty newNodePath [] ""])
  else
    match findFileByPath nodes parentPath with
    | some parentNode =>
      if parentNode.ntype = NodeType.folder then
        .ok (updateAtPath nodes parentPath
          (fun nd => FileNode.mk nd.name nd.ntype nd.path
            (nd.children ++ [FileNode.mk nodeName ty newNodePath [] ""]) nd.content))
      else .error .parentNotFound
    | none => .error .parentNotFound

/-- Search options of `searchInProject` (`isCaseSensitive`, `isRegex`,
`isWholeWord`). -/
structure SearchOptions where
  isCaseSensitive : Bool
  isRegex : Bool
  isWholeWord : Bool
deriving DecidableEq, Repr

/-- Source interface `SearchMatch` (`src/types.ts`): one matching line with its
zero-based `(start, length)` ranges in left-to-right order. -/
structure SearchMatch where
  lineNumber : Nat
  content : String
  matchRanges : List (Nat × Nat)
deriving DecidableEq, Repr

/-- Source interface `SearchResult` (`src/types.ts`); the source field
`matches` is a reserved word here, hence `lineMatches`. -/
structure SearchResult where
  path : String
  lineMatches : List SearchMatch
deriving DecidableEq, Repr

/-- A compiled JavaScript regular expression, abstracted at the platform
boundary: `execFrom line pos` models `exec` on `line` with `lastIndex = pos`,
returning the match's index and length. -/
structure JsRegex where
  execFrom : String → Nat → Option (Nat × Nat)

/-- The platform's `new RegExp(pattern, flags)` constructor, abstracted:
`compile pattern caseSensitive` returns `none` exactly when the constructor
throws (invalid pattern); the flags are `'g'` / `'gi'` as in the source. -/
structure RegexEngine where
  compile : String → Bool → Option JsRegex

/-- The character class of the source's escape step
`query.replace(/[-\/\\^$*+?.()|[\]{}]/g, '\\$&')`. -/
def regexSpecialChars : List Char :=
  "-/\\^$*+?.()|[]".data ++ [Char.ofNat 123, Char.ofNat 125]

/-- Escapes every special character of a literal query by prefixing a
backslash, as the source's `replace` call does. -/
def escapeRegex (query : String) : String :=
  ⟨query.data.foldr (fun ch acc =>
    if ch ∈ regexSpecialChars then '\\' :: ch :: acc else ch :: acc) []⟩

/-- Pattern construction of `searchInProject`: regex queries pass through
verbatim; literal queries are escaped; a non-regex whole-word query is wrapped
in `\b` anchors. -/
def buildPattern (query : String) (isRegex isWholeWord : Bool) : String :=
  let pattern := if isRegex then query else escapeRegex query
  if !isRegex && isWholeWord then "\\b" ++ pattern ++ "\\b" else pattern

/-- The per-line `while ((match = lineRegex.exec(line)) !== null)` loop:
collects matches left to right, resuming after each match (`lastIndex`
semantics of a global regex).  The fuel argument bounds the number of
iterations; the loop of the source can run at most once per character plus one. -/
def execLoop (r : JsRegex) (line : String) : Nat → Nat → List (Nat × Nat)
  | 0, _ => []
  | fuel + 1, pos =>
    match r.execFrom line pos with
    | none => []
    | some (i, len) => (i, len) :: execLoop r line fuel (i + len)

/-- All matches of the compiled regex on one line. -/
def searchMatchesOnLine (r : JsRegex) (line : String) : List (Nat × Nat) :=
  execLoop r line (line.data.length + 1) 0

/-- The `lines.forEach((line, index) => ...)` body of `searchInNode`: keeps the
lines with at least one match, with 1-based line numbers. -/
def lineMatchList (r : JsRegex) : List String → Nat → List SearchMatch
  | [], _ => []
  | line :: rest, i =>
    let lm := searchMatchesOnLine r line
    (if lm.isEmpty then [] else [⟨i, line, lm⟩]) ++ lineMatchList r rest (i + 1)

/-- Traversal `searchInNode` of `searchInProject`: a file contributes a
`SearchResult` when some line matches; a folder's children are traversed in
order. -/
def searchNodes (r : JsRegex) : List FileNode → List SearchResult
  | [] => []
  | FileNode.mk _ ty p cs c :: rest =>
    if ty = NodeType.file then
      (let ms := lineMatchList r (jsSplitLines c) 1
       if ms.isEmpty then [] else [⟨p, ms⟩]) ++ searchNodes r rest
    else
      (if ty = NodeType.folder then searchNodes r cs else []) ++ searchNodes r rest

/-- Source `searchInProject(nodes, query, options)`: an empty query returns no
results; the pattern built by `buildPattern` is compiled (flags `'g'`/`'gi'`
by case sensitivity), and a compilation failure is caught and returns the
empty result list; otherwise the tree is traversed. -/
def searchInProject (eng : RegexEngine) (nodes : List FileNode) (query : String)
    (options : SearchOptions) : List SearchResult :=
  if query = "" then []
  else
    match eng.compile (buildPattern query options.isRegex options.isWholeWord) options.isCaseSensitive with
    | none => []
    | some r => searchNodes r nodes

/-- A toast notification (`useToast().addToast(text, type)`). -/
structure Toast where
  text : String
  toastType : String
deriving DecidableEq, Repr

/-- A call issued against the sandboxed runtime's filesystem
(`webContainerRef.current.fs`): the mirror log of a handler run. -/
inductive MirrorOp where
  | rm (path : String)
  | mkdir (path : String)
  | write (path content : String)
deriving DecidableEq, Repr

/-- The `IDEView` component state relevant to the tree/history claims:
`projectStructure`, `history`, `historyIndex` and `nodesToDelete`
(`src/components/IDEView.tsx`).  `historyIndex` is an `Int` because the
JavaScript cursor arithmetic can go negative; `projectStructure` is an
`Option` because `setProjectStructure(history[i])` with an out-of-range `i`
stores JavaScript `undefined`. -/
structure IDEState where
  projectStructure : Option (List FileNode)
  history : List (List FileNode)
  historyIndex : Int
  nodesToDelete : Option (List FileNode)
deriving Repr

/-- JavaScript `array[i]` for a possibly negative index: `undefined` (`none`)
outside the array bounds. -/
def jsIndex (l : List (List FileNode)) (i : Int) : Option (List FileNode) :=
  if 0 ≤ i then l[i.toNat]? else none

/-- Source `pushHistory(newStructure)`: `history.slice(0, historyIndex + 1)`,
push, cursor to the new last index, live tree set to the pushed structure. -/
def pushHistory (s : IDEState) (newStructure : List FileNode) : IDEState :=
  let newHistory := s.history.take (s.historyIndex + 1).toNat ++ [newStructure]
  { s with
    history := newHistory
    historyIndex := (newHistory.length : Int) - 1
    projectStructure := some newStructure }

/-- Source `handleUndo`: no-op at `historyIndex <= 0`; otherwise decrement the
cursor and set the live tree to `history[newIndex]`. -/
def handleUndo (s : IDEState) : IDEState :=
  if s.historyIndex ≤ 0 then s
  else
    let newIndex := s.historyIndex - 1
    { s with historyIndex := newIndex, projectStructure := jsIndex s.history newIndex }

/-- Source `handleRedo`: no-op at `historyIndex >= history.length - 1`;
otherwise the source computes `newIndex = historyIndex - 1` — a decrement —
and sets the live tree to `history[newIndex]`.  Translated exactly as
written. -/
def handleRedo (s : IDEState) : IDEState :=
  if s.historyIndex ≥ (s.history.length : Int) - 1 then s
  else
    let newIndex := s.historyIndex - 1
    { s with historyIndex := newIndex, projectStructure := jsIndex s.history newIndex }

/-- The protected-path list of `handleRequestDelete`. -/
def protectedPaths : List String :=
  ["/package.json", "/src", "/public", "/index.html", "/vite.config.ts"]

/-- Source `handleRequestDelete(paths)`: resolves the requested paths against
the live tree, rejects the whole batch with a warning toast when any resolved
node's path is protected (no state change, no dialog), and otherwise only
stores `nodesToDelete` (the confirmation dialog); the actual deletion happens
later in `handleConfirmDelete`. -/
def handleRequestDelete (s : IDEState) (paths : List String) : IDEState × List Toast :=
  match s.projectStructure with
  | none => (s, [])
  | some struct =>
    if paths.isEmpty then (s, [])
    else
      let nodes := paths.filterMap (findFileByPath struct)
      if nodes.isEmpty then (s, [])
      else
        match nodes.find? (fun n => protectedPaths.contains n.path) with
        | some protectedItem =>
          (s, [⟨"Core item \"" ++ protectedItem.name ++ "\" cannot be deleted.", "warning"⟩])
        | none => ({ s with nodesToDelete := some nodes }, [])

/-- The `node.type` string used inside prompt interpolations. -/
def nodeTypeText : NodeType → String
  | .file => "file"
  | .folder => "folder"

/-- Source `handleRenameNode(path, newName)`: rejected with a warning while an
AI task is running, an error toast when the node is missing; otherwise — with
no protected-path check — it builds a rename prompt and forwards it to the AI
(`handleSendPrompt`), returning the prompt that is sent. -/
def handleRenameNode (struct : List FileNode) (isLoadingAI : Bool) (path newName : String) :
    Option String × List Toast :=
  if isLoadingAI then
    (none, [⟨"Please wait for the current AI task to complete.", "warning"⟩])
  else
    match findFileByPath struct path with
    | none => (none, [⟨"Could not find node at path: " ++ path, "error"⟩])
    | some node =>
      let parentPath := jsParentDir path
      let newPath := parentPath ++ "/" ++ newName
      (some ("I want to rename the " ++ nodeTypeText node.ntype ++ " at path \"" ++ path ++
        "\" to \"" ++ newName ++ "\". Its new path will be \"" ++ newPath ++
        "\". Please perform this rename and also update all import/export statements across the entire project that reference the old path to point to the new path. Provide the complete updated content for all affected files."),
       [⟨"Asking AI to rename and refactor imports...", "info"⟩])

/-- Source `handleMoveNode(sourcePath, targetParentPath)`: rejected with a
warning while an AI task is running or when the target equals the source or a
folder would move into its own subtree (`startsWith(sourcePath + '/')`); an
error toast when the source node is missing; otherwise it forwards a move
prompt to the AI. -/
def handleMoveNode (struct : List FileNode) (isLoadingAI : Bool) (sourcePath targetParentPath : String) :
    Option String × List Toast :=
  if isLoadingAI then
    (none, [⟨"Please wait for the current AI task to complete.", "warning"⟩])
  else
    match findFileByPath struct sourcePath with
    | none => (none, [⟨"Could not find node at path: " ++ sourcePath, "error"⟩])
    | some node =>
      if sourcePath = targetParentPath ||
          (node.ntype = NodeType.folder && jsStartsWith targetParentPath (sourcePath ++ "/")) then
        (none, [⟨"Invalid move operation: cannot move a folder into itself.", "warning"⟩])
      else
        (some ("I want to move the " ++ nodeTypeText node.ntype ++ " from its current location at \"" ++
          sourcePath ++ "\" to the target directory \"" ++ targetParentPath ++
          "\". You MUST update all import/export statements across the entire project to reflect the new location. Provide the complete updated content for all affected files."),
         [⟨"Asking AI to move and refactor imports...", "info"⟩])

/-- One file instruction of the AI response (`AiFile` of `src/lib/ai.ts`). -/
structure AiFile where
  path : String
  content : String
deriving DecidableEq, Repr

/-- The parsed AI response (`AiResponse` of `src/lib/ai.ts`); the optional
arrays are modelled as lists, absent ≡ empty, matching the
`response.filesToDelete && response.filesToDelete.length > 0` guards. -/
structure AiResponse where
  summary : String
  filesToUpdate : List AiFile
  filesToDelete : List AiFile
deriving DecidableEq, Repr

/-- The tree produced by one AI batch: all deletions folded over the live tree
first, then all updates. -/
def aiFinalStructure (struct : List FileNode) (resp : AiResponse) : List FileNode :=
  (resp.filesToUpdate.foldl (fun acc f => addOrUpdateFileByPath acc f.path f.content)
    (resp.filesToDelete.foldl (fun acc f => deleteNodeByPath acc f.path) struct))

/-- Source `applyAiChanges(response)`: the summary is typed out word by word
(splitting on whitespace and keeping the separators, so the concatenation
shown is exactly `response.summary`); an empty batch returns right after that
with no history push, no mirror call and no toast; otherwise deletions are
applied (each mirrored by `fs.rm`), then updates (each mirrored by a
conditional `fs.mkdir` of the parent plus `fs.writeFile`), and the resulting
tree is pushed to history exactly once, with a success toast.
Result: new state, displayed assistant message, mirror-call log, toasts. -/
def applyAiChanges (s : IDEState) (resp : AiResponse) :
    IDEState × String × List MirrorOp × List Toast :=
  match s.projectStructure with
  | none => (s, resp.summary, [], [])
  | some struct =>
    let hasDeletions := !resp.filesToDelete.isEmpty
    let hasUpdates := !resp.filesToUpdate.isEmpty
    if !hasDeletions && !hasUpdates then
      (s, resp.summary, [], [])
    else
      let deleteOps := resp.filesToDelete.map (fun f => MirrorOp.rm f.path)
      let updateOps := resp.filesToUpdate.flatMap (fun f =>
        (if jsParentDir f.path ≠ "" then [MirrorOp.mkdir (jsParentDir f.path)] else []) ++
          [MirrorOp.write f.path f.content])
      (pushHistory s (aiFinalStructure struct resp), resp.summary, deleteOps ++ updateOps,
        [⟨"AI changes applied successfully!", "success"⟩])

/-- One JavaScript object of a `FileNode` graph, as stored in the heap model:
the data fields plus the addresses of the children objects. -/
structure HNode where
  hname : String
  hntype : NodeType
  hpath : String
  hcontent : String
  hkids : List Nat
deriving DecidableEq, Repr

/-- The object store: the address of an object is its index; allocation
appends.  Anything the caller owned before a call lives at addresses below the
pre-call length. -/
abbrev Heap := List HNode

/-- Allocation of the `JSON.parse(JSON.stringify(nodes))` deep copy: every
node of the (pure) tree value read from the input graph is written to a fresh
address; children are allocated before their parent. -/
def allocForest : Heap → List FileNode → Heap × List Nat
  | h, [] => (h, [])
  | h, FileNode.mk n ty p cs c :: rest =>
    let r1 := allocForest h cs
    let a := r1.1.length
    let h2 := r1.1 ++ [⟨n, ty, p, c, r1.2⟩]
    let r2 := allocForest h2 rest
    (r2.1, a :: r2.2)

/-- The `currentChildren` array the source walks: the copy's root list when no
folder has been entered yet, else the `children` of the folder object at the
given address. -/
def heapKids (h : Heap) (roots : List Nat) (loc : Option Nat) : List Nat :=
  match loc with
  | none => roots
  | some a => match h[a]? with
    | some o => o.hkids
    | none => []

/-- In-place update of the `children` array of the object at `a`
(`currentChildren.push(...)` / `folder.children = []` in the source). -/
def heapSetKids (h : Heap) (a : Nat) (ks : List Nat) : Heap :=
  match h[a]? with
  | some o => h.set a ⟨o.hname, o.hntype, o.hpath, o.hcontent, ks⟩
  | none => h

/-- In-place update of the `content` field of the object at `a`
(`currentChildren[fileIndex].content = newContent` in the source). -/
def heapSetContent (h : Heap) (a : Nat) (c : String) : Heap :=
  match h[a]? with
  | some o => h.set a ⟨o.hname, o.hntype, o.hpath, c, o.hkids⟩
  | none => h

/-- `currentChildren.find(node => node.name === part && node.type === 'folder')`
over object addresses. -/
def heapFindFolder (h : Heap) (kids : List Nat) (part : String) : Option Nat :=
  kids.find? (fun a => match h[a]? with
    | some o => o.hname == part && o.hntype == NodeType.folder
    | none => false)

/-- The directory-walk loop of `addOrUpdateFileByPath` in heap form: state is
the heap, the copy's root list, the current `currentChildren` location and the
accumulated `currentPath`. -/
def upsertHeapWalk (h : Heap) (roots : List Nat) (loc : Option Nat) (curPath : String) :
    List String → Heap × List Nat × Option Nat × String
  | [] => (h, roots, loc, curPath)
  | part :: rest =>
    let curPath' := curPath ++ "/" ++ part
    match heapFindFolder h (heapKids h roots loc) part with
    | some fa => upsertHeapWalk h roots (some fa) curPath' rest
    | none =>
      let na := h.length
      let h1 := h ++ [⟨part, NodeType.folder, curPath', "", []⟩]
      match loc with
      | none => upsertHeapWalk h1 (roots ++ [na]) (some na) curPath' rest
      | some a => upsertHeapWalk (heapSetKids h1 a (heapKids h1 roots (some a) ++ [na])) roots (some na) curPath' rest

/-- The final `findIndex`/update/push step of `addOrUpdateFileByPath` in heap
form. -/
def upsertHeapFinal (h : Heap) (roots : List Nat) (loc : Option Nat)
    (curPath fileName content : String) : Heap × List Nat :=
  let kids := heapKids h roots loc
  match kids.find? (fun a => match h[a]? with
    | some o => o.hname == fileName
    | none => false) with
  | some fa => (heapSetContent h fa content, roots)
  | none =>
    let na := h.length
    let h1 := h ++ [⟨fileName, NodeType.file, curPath ++ "/" ++ fileName, content, []⟩]
    match loc with
    | none => (h1, roots ++ [na])
    | some a => (heapSetKids h1 a (heapKids h1 roots (some a) ++ [na]), roots)

/-- Heap semantics of `addOrUpdateFileByPath`: allocate the deep copy of the
input graph (whose pure tree value is `ts`), then run the walk and the final
update on the copy.  The input graph occupies addresses below `h.length` and
is only read. -/
def addOrUpdateFileByPathH (h : Heap) (ts : List FileNode) (path content : String) :
    Heap × List Nat :=
  let r := allocForest h ts
  let parts := splitPath path
  match parts.getLast? with
  | none => (r.1, r.2)
  | some fileName =>
    let w := upsertHeapWalk r.1 r.2 none "" parts.dropLast
    upsertHeapFinal w.1 w.2.1 w.2.2.1 w.2.2.2 fileName content

/-- `findFileByPath` over the object graph, fuelled (the object graph built by
the deep copy is acyclic, and the fuel is irrelevant to the claims proved
about this function). -/
def findHeapByPath : Nat → Heap → List Nat → String → Option Nat
  | 0, _, _, _ => none
  | _ + 1, _, [], _ => none
  | fuel + 1, h, a :: rest, q =>
    match h[a]? with
    | none => findHeapByPath (fuel + 1) h rest q
    | some o =>
      if o.hpath = q then some a
      else if o.hntype = NodeType.folder && jsStartsWith q (o.hpath ++ "/") then
        match findHeapByPath fuel h o.hkids q with
        | some r => some r
        | none => findHeapByPath (fuel + 1) h rest q
      else findHeapByPath (fuel + 1) h rest q
termination_by fuel _ addrs _ => (fuel, addrs.length)

/-- Heap semantics of `addNodeToTree`: deep copy, duplicate check by
`findFileByPath` on the copy, then either a root-level push, an in-place push
onto the parent folder's `children`, or a thrown error (the heap then holds
just the copy). -/
def addNodeToTreeH (h : Heap) (ts : List FileNode) (parentPath nodeName : String)
    (ty : NodeType) : Heap × Except AddNodeError (List Nat) :=
  let r := allocForest h ts
  let h1 := r.1
  let roots := r.2
  let newNodePath := if parentPath = "/" then "/" ++ nodeName else parentPath ++ "/" ++ nodeName
  match findHeapByPath h1.length h1 roots newNodePath with
  | some _ => (h1, .error .duplicateName)
  | none =>
    if parentPath = "/" then
      (h1 ++ [⟨nodeName, ty, newNodePath, "", []⟩], .ok (roots ++ [h1.length]))
    else
      match findHeapByPath h1.length h1 roots parentPath with
      | some pa =>
        match h1[pa]? with
        | some po =>
          if po.hntype = NodeType.folder then
            (heapSetKids (h1 ++ [⟨nodeName, ty, newNodePath, "", []⟩]) pa (po.hkids ++ [h1.length]),
              .ok roots)
          else (h1, .error .parentNotFound)
        | none => (h1, .error .parentNotFound)
      | none => (h1, .error .parentNotFound)

/-- Heap semantics of `deleteNodeByPath`: the source never assigns to an
existing object — it builds a new array (`filter`) of either the original
child addresses or freshly spread folder objects (`{...node, children: ...}`).
Allocation-only, fuelled like `findHeapByPath`. -/
def deleteNodeByPathH : Nat → Heap → List Nat → String → Heap × List Nat
  | 0, h, _, _ => (h, [])
  | _ + 1, h, [], _ => (h, [])
  | fuel + 1, h, a :: rest, path =>
    match h[a]? with
    | none => deleteNodeByPathH (fuel + 1) h rest path
    | some o =>
      if o.hpath = path then deleteNodeByPathH (fuel + 1) h rest path
      else if o.hntype = NodeType.folder && jsStartsWith path (o.hpath ++ "/") then
        let r1 := deleteNodeByPathH fuel h o.hkids path
        let na := r1.1.length
        let h2 := r1.1 ++ [⟨o.hname, o.hntype, o.hpath, o.hcontent, r1.2⟩]
        let r2 := deleteNodeByPathH (fuel + 1) h2 rest path
        (r2.1, na :: r2.2)
      else
        let r2 := deleteNodeByPathH (fuel + 1) h rest path
        (r2.1, a :: r2.2)
termination_by fuel _ addrs _ => (fuel, addrs.length)

/-- A legal path segment of the data model: nonempty and slash-free. -/
def legalSeg (s : String) : Bool :=
  s != "" && !(s.data.contains '/')

/-- All segments legal. -/
def legalSegs (segs : List String) : Bool :=
  segs.all legalSeg

/-- The canonical absolute path obtained by appending `"/" ++ seg` for each
segment to a prefix; `joinSegs "" segs` is the canonical `/`-rooted path of
the data model. -/
def joinSegs (pre : String) : List String → String
  | [] => pre
  | s :: rest => joinSegs (pre ++ "/" ++ s) rest

/-- The character list `/s₁/s₂...` of a segment list. -/
def segChars : List String → List Char
  | [] => []
  | s :: rest => '/' :: (s.data ++ segChars rest)

/-- Well-formedness of a forest under a path prefix, following the data-model
invariants of the specification: every node's `path` is its parent's path plus
`"/" ++ name`, names are legal segments, no two siblings share a name, and
children are well-formed under the node's path.  `okForest "" ts` is
well-formedness of a root forest (root paths `"/" ++ name`). -/
def okForest (pre : String) : List FileNode → Bool
  | [] => true
  | FileNode.mk n _ p cs _ :: rest =>
    legalSeg n && p == pre ++ "/" ++ n && rest.all (fun m => m.name != n) &&
      okForest p cs && okForest pre rest

/-- Structural presence of a path, by segments: the last segment names a child
(of either kind) of the folder chain named by the earlier segments.  This is
the specification's notion "a sibling node with that name exists under that
parent". -/
def memPath : List FileNode → List String → Bool
  | _, [] => false
  | [], _ :: _ => false
  | FileNode.mk n ty _ cs _ :: rest, s :: srest =>
    (if srest.isEmpty then n == s
     else n == s && ty == NodeType.folder && memPath cs srest) ||
      memPath rest (s :: srest)

/-- Addresses at or above `n` only reference addresses at or above `n`: the
freshly allocated copy region never points back into the caller's graph. -/
def regionClosed (n : Nat) (h : Heap) : Prop :=
  ∀ a o, h[a]? = some o → n ≤ a → ∀ k ∈ o.hkids, n ≤ k

/-- A small concrete project tree used by the evaluation theorems: the
protected `/src` folder with one file, plus a root file. -/
def sampleTree : List FileNode :=
  [FileNode.mk "src" NodeType.folder "/src"
      [FileNode.mk "App.tsx" NodeType.file "/src/App.tsx" [] "hello"] "",
   FileNode.mk "index.html" NodeType.file "/index.html" [] "<html>"]

/-- Nested induction principle for forests of `FileNode`s. -/
theorem forestInduction (P : List FileNode → Prop) (hnil : P [])
    (hcons : ∀ n ty p cs c rest, P cs → P rest → P (FileNode.mk n ty p cs c :: rest)) :
    ∀ ts, P ts
  | [] => hnil
  | FileNode.mk n ty p cs c :: rest =>
    hcons n ty p cs c rest (forestInduction P hnil hcons cs) (forestInduction P hnil hcons rest)

theorem jsStartsWith_iff {s p : String} : jsStartsWith s p = true ↔ p.data <+: s.data := by
  simp [jsStartsWith, List.isPrefixOf_iff_prefix]

theorem legalSeg_ne {s : String} (h : legalSeg s = true) : s ≠ "" := by
  simp [legalSeg] at h
  exact h.1

theorem legalSeg_noslash {s : String} (h : legalSeg s = true) : '/' ∉ s.data := by
  simp [legalSeg, List.contains] at h
  simpa using h.2

theorem joinSegs_append (as : List String) : ∀ (bs : List String) (pre : String),
    joinSegs pre (as ++ bs) = joinSegs (joinSegs pre as) bs := by
  induction as with
  | nil => intro bs pre; rfl
  | cons a as ih => intro bs pre; simp [joinSegs, ih]

theorem joinSegs_data (segs : List String) : ∀ pre : String,
    (joinSegs pre segs).data = pre.data ++ segChars segs := by
  induction segs with
  | nil => intro pre; simp [joinSegs, segChars]
  | cons s rest ih =>
    intro pre
    simp [joinSegs, segChars, ih, String.data_append]

theorem segChars_append (as bs : List String) :
    segChars (as ++ bs) = segChars as ++ segChars bs := by
  induction as with
  | nil => simp [segChars]
  | cons a as ih => simp [segChars, ih]

theorem slashfree_append_eq : ∀ (u v x y : List Char), '/' ∉ u → '/' ∉ v →
    (x = [] ∨ ∃ x', x = '/' :: x') → (y = [] ∨ ∃ y', y = '/' :: y') →
    u ++ x = v ++ y → u = v ∧ x = y := by
  intro u
  induction u with
  | nil =>
    intro v x y _ hv hx hy heq
    cases v with
    | nil => exact ⟨rfl, heq⟩
    | cons b v' =>
      exfalso
      rcases hx with hx | ⟨x', hx⟩
      · subst hx
        simp at heq
      · subst hx
        rw [List.nil_append, List.cons_append] at heq
        injection heq with h1 _
        cases h1
        exact hv (List.mem_cons_self _ _)
  | cons a u' ih =>
    intro v x y hu hv hx hy heq
    cases v with
    | nil =>
      exfalso
      rcases hy with hy | ⟨y', hy⟩
      · subst hy
        simp at heq
      · subst hy
        rw [List.nil_append, List.cons_append] at heq
        injection heq with h1 _
        exact hu (by simp [h1])
    | cons b v' =>
      rw [List.cons_append, List.cons_append] at heq
      injection heq with hab htail
      have hu' : '/' ∉ u' := fun hm => hu (List.mem_cons_of_mem _ hm)
      have hv' : '/' ∉ v' := fun hm => hv (List.mem_cons_of_mem _ hm)
      obtain ⟨h1, h2⟩ := ih v' x y hu' hv' hx hy htail
      exact ⟨by rw [hab, h1], h2⟩

theorem slashfree_append_sub : ∀ (u v x' y : List Char), '/' ∉ u → '/' ∉ v →
    (y = [] ∨ ∃ y', y = '/' :: y') →
    (u ++ '/' :: x') <+: (v ++ y) → u = v ∧ ('/' :: x') <+: y := by
  intro u
  induction u with
  | nil =>
    intro v x' y _ hv hy hp
    cases v with
    | nil => exact ⟨rfl, by simpa using hp⟩
    | cons b v' =>
      exfalso
      rw [List.nil_append, List.cons_append] at hp
      rw [List.cons_prefix_cons] at hp
      cases hp.1
      exact hv (List.mem_cons_self _ _)
  | cons a u' ih =>
    intro v x' y hu hv hy hp
    cases v with
    | nil =>
      exfalso
      rw [List.nil_append, List.cons_append] at hp
      rcases hy with hy | ⟨y', hy⟩
      · subst hy
        simp at hp
      · subst hy
        rw [List.cons_prefix_cons] at hp
        exact hu (by simp [hp.1])
    | cons b v' =>
      rw [List.cons_append, List.cons_append, List.cons_prefix_cons] at hp
      have hu' : '/' ∉ u' := fun hm => hu (List.mem_cons_of_mem _ hm)
      have hv' : '/' ∉ v' := fun hm => hv (List.mem_cons_of_mem _ hm)
      obtain ⟨h1, h2⟩ := ih v' x' y hu' hv' hy hp.2
      exact ⟨by rw [hp.1, h1], h2⟩

theorem segChars_shape (as : List String) : segChars as = [] ∨ ∃ t, segChars as = '/' :: t := by
  cases as with
  | nil => left; rfl
  | cons a as => right; exact ⟨a.data ++ segChars as, rfl⟩

theorem segChars_concat_slash (as : List String) : ∃ t, segChars as ++ ['/'] = '/' :: t := by
  cases as with
  | nil => exact ⟨[], rfl⟩
  | cons a as => exact ⟨a.data ++ segChars as ++ ['/'], by simp [segChars]⟩

theorem legalSegs_cons {a : String} {as : List String} (h : legalSegs (a :: as) = true) :
    legalSeg a = true ∧ legalSegs as = true := by
  simpa [legalSegs, List.all_cons] using h

theorem segChars_inj : ∀ (as bs : List String), legalSegs as = true → legalSegs bs = true →
    segChars as = segChars bs → as = bs := by
  intro as
  induction as with
  | nil =>
    intro bs _ _ heq
    cases bs with
    | nil => rfl
    | cons b bs => simp [segChars] at heq
  | cons a as ih =>
    intro bs ha hb heq
    cases bs with
    | nil => simp [segChars] at heq
    | cons b bs =>
      obtain ⟨ha1, ha2⟩ := legalSegs_cons ha
      obtain ⟨hb1, hb2⟩ := legalSegs_cons hb
      simp only [segChars, List.cons.injEq, true_and] at heq
      obtain ⟨hdata, hrest⟩ := slashfree_append_eq a.data b.data (segChars as) (segChars bs)
        (legalSeg_noslash ha1) (legalSeg_noslash hb1) (segChars_shape as) (segChars_shape bs) heq
      rw [String.ext hdata, ih bs ha2 hb2 hrest]

theorem segChars_slash_sub : ∀ (as bs : List String), legalSegs as = true → legalSegs bs = true →
    ((segChars as ++ ['/'] <+: segChars bs) ↔ ∃ c cs, bs = as ++ c :: cs) := by
  intro as
  induction as with
  | nil =>
    intro bs _ _
    constructor
    · intro hp
      cases bs with
      | nil => simp [segChars] at hp
      | cons b bs => exact ⟨b, bs, rfl⟩
    · rintro ⟨c, cs, rfl⟩
      simp [segChars]
  | cons a as ih =>
    intro bs ha hb
    obtain ⟨ha1, ha2⟩ := legalSegs_cons ha
    constructor
    · intro hp
      cases bs with
      | nil => simp [segChars] at hp
      | cons b bs =>
        obtain ⟨hb1, hb2⟩ := legalSegs_cons hb
        rw [segChars, segChars, List.cons_append, List.append_assoc, List.cons_prefix_cons] at hp
        obtain ⟨t, ht⟩ := segChars_concat_slash as
        rw [ht] at hp
        have hsub := slashfree_append_sub a.data b.data t (segChars bs)
          (legalSeg_noslash ha1) (legalSeg_noslash hb1) (segChars_shape bs) hp.2
        rw [← ht] at hsub
        obtain ⟨c, cs, hcs⟩ := (ih bs ha2 hb2).mp hsub.2
        exact ⟨c, cs, by rw [hcs, String.ext hsub.1]; simp⟩
    · rintro ⟨c, cs, rfl⟩
      rw [segChars_append]
      rw [segChars, List.cons_append, List.append_assoc]
      rw [segChars, List.cons_append, List.cons_prefix_cons]
      refine ⟨rfl, ?_⟩
      rw [List.append_assoc, List.prefix_append_right_inj]
      simp

theorem joinSegs_single (pre n : String) : joinSegs pre [n] = pre ++ "/" ++ n := rfl

theorem joinSegs_inj {pre : String} {as bs : List String} (la : legalSegs as = true)
    (lb : legalSegs bs = true) : joinSegs pre as = joinSegs pre bs ↔ as = bs := by
  constructor
  · intro h
    have hdata : (joinSegs pre as).data = (joinSegs pre bs).data := by rw [h]
    rw [joinSegs_data, joinSegs_data] at hdata
    exact segChars_inj as bs la lb (List.append_cancel_left hdata)
  · intro h; rw [h]

theorem joinSegs_startsSlash {pre : String} {as bs : List String} (la : legalSegs as = true)
    (lb : legalSegs bs = true) :
    jsStartsWith (joinSegs pre bs) (joinSegs pre as ++ "/") = true ↔ ∃ c cs, bs = as ++ c :: cs := by
  rw [jsStartsWith_iff, String.data_append, joinSegs_data, joinSegs_data, List.append_assoc,
    List.prefix_append_right_inj]
  exact segChars_slash_sub as bs la lb

theorem startsSlash_self_false {pre : String} {as : List String} (la : legalSegs as = true) :
    jsStartsWith (joinSegs pre as) (joinSegs pre as ++ "/") = false := by
  rw [Bool.eq_false_iff]
  intro h
  obtain ⟨c, cs, hcs⟩ := (joinSegs_startsSlash la la).mp h
  have := congrArg List.length hcs
  simp at this

theorem find_sound : ∀ (ts : List FileNode) (q : String) (nd : FileNode),
    findFileByPath ts q = some nd → nd.path = q := by
  intro ts
  induction ts using forestInduction with
  | hnil => intro q nd h; simp [findFileByPath] at h
  | hcons n ty p cs c rest ihc ihr =>
    intro q nd h
    simp only [findFileByPath] at h
    split_ifs at h with h1 h2
    · cases h
      exact h1
    · cases hcs : findFileByPath cs q with
      | some found => rw [hcs] at h; cases h; exact ihc q _ hcs
      | none => rw [hcs] at h; exact ihr q nd h
    · exact ihr q nd h

theorem find_delete_none : ∀ (ts : List FileNode) (p : String),
    findFileByPath (deleteNodeByPath ts p) p = none := by
  intro ts
  induction ts using forestInduction with
  | hnil => intro p; simp [deleteNodeByPath, findFileByPath]
  | hcons n ty pp cs c rest ihc ihr =>
    intro p
    simp only [deleteNodeByPath]
    split_ifs with h1 h2
    · exact ihr p
    · simp only [findFileByPath]
      rw [if_neg h1, if_pos h2, ihc p, ihr p]
    · simp only [findFileByPath]
      rw [if_neg h1, if_neg h2]
      exact ihr p

theorem delete_noop : ∀ (ts : List FileNode) (p : String),
    findFileByPath ts p = none → deleteNodeByPath ts p = ts := by
  intro ts
  induction ts using forestInduction with
  | hnil => intro p _; simp [deleteNodeByPath]
  | hcons n ty pp cs c rest ihc ihr =>
    intro p h
    simp only [findFileByPath] at h
    split_ifs at h with h1 h2
    · cases hcs : findFileByPath cs p with
      | some found => rw [hcs] at h; simp at h
      | none =>
        rw [hcs] at h
        simp only [deleteNodeByPath]
        rw [if_neg h1, if_pos h2, ihc p hcs, ihr p h]
    · simp only [deleteNodeByPath]
      rw [if_neg h1, if_neg h2, ihr p h]

theorem okForest_cons {pre n p c : String} {ty : NodeType} {cs rest : List FileNode} :
    okForest pre (FileNode.mk n ty p cs c :: rest) = true ↔
      legalSeg n = true ∧ p = pre ++ "/" ++ n ∧ (∀ m ∈ rest, ¬m.name = n) ∧
      okForest p cs = true ∧ okForest pre rest = true := by
  simp [okForest, List.all_eq_true, and_assoc]

theorem legalSegs_single {n : String} (h : legalSeg n = true) : legalSegs [n] = true := by
  simp [legalSegs, h]

theorem legalSegs_append {as bs : List String} (ha : legalSegs as = true)
    (hb : legalSegs bs = true) : legalSegs (as ++ bs) = true := by
  simp [legalSegs, List.all_append] at *
  exact ⟨ha, hb⟩

theorem find_delete_sub : ∀ (ts : List FileNode) (pre : String) (ps qs : List String),
    okForest pre ts = true → legalSegs ps = true → legalSegs qs = true →
    ps ≠ [] → qs ≠ [] →
    findFileByPath (deleteNodeByPath ts (joinSegs pre ps)) (joinSegs pre (ps ++ qs)) = none := by
  intro ts
  induction ts using forestInduction with
  | hnil => intro pre ps qs _ _ _ _ _; simp [deleteNodeByPath, findFileByPath]
  | hcons n ty p cs c rest ihc ihr =>
    intro pre ps qs hok hps hqs hpsne hqsne
    obtain ⟨hn, hp, _, hokc, hokr⟩ := okForest_cons.mp hok
    have hlegn : legalSegs [n] = true := legalSegs_single hn
    have hlegpq : legalSegs (ps ++ qs) = true := legalSegs_append hps hqs
    have hpj : p = joinSegs pre [n] := by rw [joinSegs_single]; exact hp
    have hpathne : p ≠ joinSegs pre (ps ++ qs) := by
      rw [hpj]
      intro hcon
      have h1 : [n] = ps ++ qs := (joinSegs_inj hlegn hlegpq).mp hcon
      have h2 := congrArg List.length h1
      rcases List.exists_cons_of_ne_nil hpsne with ⟨s, ps', rfl⟩
      rcases List.exists_cons_of_ne_nil hqsne with ⟨t, qs', rfl⟩
      simp at h2
    simp only [deleteNodeByPath]
    split_ifs with h1 h2
    · exact ihr pre ps qs hokr hps hqs hpsne hqsne
    · -- folder on the deletion route: children recursively deleted
      rw [Bool.and_eq_true] at h2
      have hds : jsStartsWith (joinSegs pre ps) (joinSegs pre [n] ++ "/") = true := by
        rw [← hpj]; exact h2.2
      obtain ⟨c0, cs0, hps0⟩ := (joinSegs_startsSlash hlegn hps).mp hds
      simp only [List.singleton_append] at hps0
      have hty : ty = NodeType.folder := by simpa using h2.1
      simp only [findFileByPath]
      rw [if_neg hpathne]
      have hgf : (decide (ty = NodeType.folder) && jsStartsWith (joinSegs pre (ps ++ qs)) (p ++ "/")) = true := by
        rw [Bool.and_eq_true]
        refine ⟨by simp [hty], ?_⟩
        rw [hpj, joinSegs_startsSlash hlegn hlegpq]
        exact ⟨c0, cs0 ++ qs, by rw [hps0]; simp⟩
      rw [if_pos hgf]
      have hps' : joinSegs pre ps = joinSegs p (c0 :: cs0) := by
        rw [hps0, hpj]
        have h3 := joinSegs_append [n] (c0 :: cs0) pre
        simpa using h3.symm
      have hpq' : joinSegs pre (ps ++ qs) = joinSegs p ((c0 :: cs0) ++ qs) := by
        rw [hps0, hpj]
        have h3 := joinSegs_append [n] ((c0 :: cs0) ++ qs) pre
        simpa using h3.symm
      obtain ⟨hps1, hps2⟩ := legalSegs_cons (hps0 ▸ hps)
      have hchild : findFileByPath (deleteNodeByPath cs (joinSegs pre ps)) (joinSegs pre (ps ++ qs)) = none := by
        rw [hps', hpq']
        exact ihc p (c0 :: cs0) qs hokc hps2 hqs (by simp) hqsne
      rw [hchild]
      exact ihr pre ps qs hokr hps hqs hpsne hqsne
    · -- node off the deletion route: untouched, and the query cannot enter it
      simp only [findFileByPath]
      rw [if_neg hpathne]
      have hgf : (decide (ty = NodeType.folder) && jsStartsWith (joinSegs pre (ps ++ qs)) (p ++ "/")) = false := by
        rw [Bool.and_eq_false_iff]
        by_cases hty : ty = NodeType.folder
        · right
          rw [Bool.eq_false_iff]
          intro hstart
          rw [hpj] at hstart
          obtain ⟨c0, cs0, hpq0⟩ := (joinSegs_startsSlash hlegn hlegpq).mp hstart
          simp only [List.singleton_append] at hpq0
          rcases List.exists_cons_of_ne_nil hpsne with ⟨s, ps', rfl⟩
          rw [List.cons_append] at hpq0
          injection hpq0 with hsn htl
          subst hsn
          cases ps' with
          | nil => exact h1 (by rw [hpj, joinSegs_single])
          | cons u us =>
            apply h2
            rw [Bool.and_eq_true]
            refine ⟨by simp [hty], ?_⟩
            rw [hpj, joinSegs_startsSlash hlegn hps]
            exact ⟨u, us, by simp⟩
        · left; simpa using hty
      rw [if_neg (by rw [hgf]; simp)]
      exact ihr pre ps qs hokr hps hqs hpsne hqsne

attribute [simp] FileNode.name FileNode.ntype FileNode.path FileNode.children FileNode.content

theorem path_single_ne {pre m : String} {segs : List String} (hm : legalSeg m = true)
    (hsegs : legalSegs segs = true) (hne : [m] ≠ segs) : pre ++ "/" ++ m ≠ joinSegs pre segs := by
  rw [← joinSegs_single pre m]
  intro hcon
  exact hne ((joinSegs_inj (legalSegs_single hm) hsegs).mp hcon)

theorem single_startsSlash {pre m : String} {segs : List String} (hm : legalSeg m = true)
    (hsegs : legalSegs segs = true) :
    jsStartsWith (joinSegs pre segs) ((pre ++ "/" ++ m) ++ "/") = true ↔
      ∃ c cs, segs = m :: c :: cs := by
  rw [← joinSegs_single pre m, joinSegs_startsSlash (legalSegs_single hm) hsegs]
  constructor
  · rintro ⟨c, cs, rfl⟩; exact ⟨c, cs, by simp⟩
  · rintro ⟨c, cs, rfl⟩; exact ⟨c, cs, by simp⟩

theorem upsertFinal_cons_ne {m pp cc : String} {ty : NodeType} {cs : List FileNode}
    {level : List FileNode} {pre fn ct : String} (h : (m == fn) = false) :
    upsertFinal (FileNode.mk m ty pp cs cc :: level) pre fn ct =
      FileNode.mk m ty pp cs cc :: upsertFinal level pre fn ct := by
  have hne : ¬m = fn := by simpa using h
  simp only [upsertFinal]
  rw [List.find?_cons_of_neg _ (by simpa using h)]
  cases hf : List.find? (fun nd => nd.name == fn) level with
  | none => simp [replaceFirst]
  | some found => simp [replaceFirst, hne]

theorem upsertTree_cons_ne {m pp cc : String} {ty : NodeType} {cs : List FileNode}
    {level : List FileNode} {pre fn ct : String} {part : String} {rest : List String}
    (h : (m == part && ty == NodeType.folder) = false) :
    upsertTree (FileNode.mk m ty pp cs cc :: level) pre (part :: rest) fn ct =
      FileNode.mk m ty pp cs cc :: upsertTree level pre (part :: rest) fn ct := by
  have hne : ¬(m = part ∧ ty = NodeType.folder) := by simpa using h
  simp only [upsertTree]
  rw [List.find?_cons_of_neg _ (by simpa using h)]
  cases hf : List.find? (fun nd => nd.name == part && nd.ntype == NodeType.folder) level with
  | none => simp [replaceFirst]
  | some found => simp [replaceFirst, hne]

theorem replaceFirst_cons_pos {q : FileNode → Bool} {f : FileNode → FileNode} {nd : FileNode}
    {rest : List FileNode} (h : q nd = true) : replaceFirst q f (nd :: rest) = f nd :: rest := by
  simp [replaceFirst, h]

theorem upsertFinal_cons_pos {m pp cc : String} {ty : NodeType} {cs : List FileNode}
    {level : List FileNode} {pre fn ct : String} (h : (m == fn) = true) :
    upsertFinal (FileNode.mk m ty pp cs cc :: level) pre fn ct =
      FileNode.mk m ty pp cs ct :: level := by
  have hpred : (fun nd => nd.name == fn) (FileNode.mk m ty pp cs cc) = true := by simpa using h
  simp only [upsertFinal]
  rw [show List.find? (fun nd => nd.name == fn) (FileNode.mk m ty pp cs cc :: level) =
      some (FileNode.mk m ty pp cs cc) from List.find?_cons_of_pos _ hpred]
  show replaceFirst (fun nd => nd.name == fn)
      (fun nd => FileNode.mk nd.name nd.ntype nd.path nd.children ct)
      (FileNode.mk m ty pp cs cc :: level) = FileNode.mk m ty pp cs ct :: level
  rw [replaceFirst_cons_pos hpred]
  rfl

theorem upsertTree_cons_pos {m pp cc : String} {ty : NodeType} {cs : List FileNode}
    {level : List FileNode} {pre fn ct part : String} {rest : List String}
    (h : (m == part && ty == NodeType.folder) = true) :
    upsertTree (FileNode.mk m ty pp cs cc :: level) pre (part :: rest) fn ct =
      FileNode.mk m ty pp (upsertTree cs (pre ++ "/" ++ part) rest fn ct) cc :: level := by
  have hpred : (fun nd => nd.name == part && nd.ntype == NodeType.folder)
      (FileNode.mk m ty pp cs cc) = true := by simpa using h
  simp only [upsertTree]
  rw [show List.find? (fun nd => nd.name == part && nd.ntype == NodeType.folder)
      (FileNode.mk m ty pp cs cc :: level) = some (FileNode.mk m ty pp cs cc) from
      List.find?_cons_of_pos _ hpred]
  show replaceFirst (fun nd => nd.name == part && nd.ntype == NodeType.folder)
      (fun nd => FileNode.mk nd.name nd.ntype nd.path
        (upsertTree (FileNode.mk m ty pp cs cc).children (pre ++ "/" ++ part) rest fn ct)
        nd.content)
      (FileNode.mk m ty pp cs cc :: level) =
    FileNode.mk m ty pp (upsertTree cs (pre ++ "/" ++ part) rest fn ct) cc :: level
  rw [replaceFirst_cons_pos hpred]
  rfl

theorem upsertTree_nil_cons {pre part fn ct : String} {rest : List String} :
    upsertTree [] pre (part :: rest) fn ct =
      [FileNode.mk part NodeType.folder (pre ++ "/" ++ part)
        (upsertTree [] (pre ++ "/" ++ part) rest fn ct) ""] := by
  simp [upsertTree, List.find?]

theorem upsertTree_nil_nil {pre fn ct : String} :
    upsertTree [] pre [] fn ct = [FileNode.mk fn NodeType.file (pre ++ "/" ++ fn) [] ct] := by
  simp [upsertTree, upsertFinal, List.find?]

theorem find_upsert : ∀ (parts : List String) (level : List FileNode) (pre fileName content : String),
    okForest pre level = true → legalSegs parts = true → legalSeg fileName = true →
    ∃ nd, findFileByPath (upsertTree level pre parts fileName content)
        (joinSegs pre (parts ++ [fileName])) = some nd
      ∧ nd.content = content
      ∧ (findFileByPath level (joinSegs pre (parts ++ [fileName])) = none → nd.ntype = NodeType.file) := by
  intro parts
  induction parts with
  | nil =>
    intro level
    induction level using forestInduction with
    | hnil =>
      intro pre fn ct _ _ _
      refine ⟨FileNode.mk fn NodeType.file (pre ++ "/" ++ fn) [] ct, ?_, rfl, fun _ => rfl⟩
      have hq : joinSegs pre ([] ++ [fn]) = pre ++ "/" ++ fn := by
        simp [joinSegs_single]
      rw [hq]
      have h0 : upsertTree ([] : List FileNode) pre [] fn ct =
          [FileNode.mk fn NodeType.file (pre ++ "/" ++ fn) [] ct] := upsertTree_nil_nil
      rw [h0]
      simp [findFileByPath]
    | hcons m ty pp cs cc level ihc ihlevel =>
      intro pre fn ct hok _ hfn
      obtain ⟨hm, hpp, _, hokc, hokr⟩ := okForest_cons.mp hok
      have hq : joinSegs pre ([] ++ [fn]) = pre ++ "/" ++ fn := by
        simp [joinSegs_single]
      by_cases hmfn : m = fn
      · refine ⟨FileNode.mk m ty pp cs ct, ?_, rfl, ?_⟩
        · have h0 : upsertTree (FileNode.mk m ty pp cs cc :: level) pre [] fn ct =
              FileNode.mk m ty pp cs ct :: level := by
            simp only [upsertTree]
            exact upsertFinal_cons_pos (by simp [hmfn])
          rw [h0]
          simp only [findFileByPath]
          rw [if_pos (by rw [hpp, hmfn, hq])]
        · intro hnone
          exfalso
          simp only [findFileByPath] at hnone
          rw [if_pos (by rw [hpp, hmfn, hq])] at hnone
          simp at hnone
      · have hb : (m == fn) = false := by simp [hmfn]
        obtain ⟨nd, hfind, hct, htyp⟩ := ihlevel pre fn ct hokr (by simp [legalSegs]) hfn
        have hppne : pp ≠ joinSegs pre ([] ++ [fn]) := by
          rw [hpp]
          apply path_single_ne hm (by simp [legalSegs, hfn])
          simp [hmfn]
        have hguard : (decide (ty = NodeType.folder) &&
            jsStartsWith (joinSegs pre ([] ++ [fn])) (pp ++ "/")) = false := by
          rw [Bool.and_eq_false_iff]
          by_cases hty : ty = NodeType.folder
          · right
            rw [Bool.eq_false_iff]
            intro hs
            rw [hpp] at hs
            obtain ⟨c0, cs0, hc⟩ := (single_startsSlash hm (by simp [legalSegs, hfn])).mp hs
            simp at hc
          · left; simpa using hty
        refine ⟨nd, ?_, hct, ?_⟩
        · have h0 : upsertTree (FileNode.mk m ty pp cs cc :: level) pre [] fn ct =
              FileNode.mk m ty pp cs cc :: upsertFinal level pre fn ct := by
            simp only [upsertTree]
            exact upsertFinal_cons_ne hb
          rw [h0]
          simp only [findFileByPath]
          rw [if_neg hppne, if_neg (by rw [hguard]; simp)]
          simpa [upsertTree] using hfind
        · intro hnone
          apply htyp
          simp only [findFileByPath] at hnone
          rw [if_neg hppne, if_neg (by rw [hguard]; simp)] at hnone
          exact hnone
  | cons part rest ih =>
    intro level
    induction level using forestInduction with
    | hnil =>
      intro pre fn ct _ hparts hfn
      obtain ⟨hpart, hrest⟩ := legalSegs_cons hparts
      have hlegq : legalSegs ((part :: rest) ++ [fn]) = true :=
        legalSegs_append hparts (legalSegs_single hfn)
      have hq : joinSegs pre ((part :: rest) ++ [fn]) = joinSegs (pre ++ "/" ++ part) (rest ++ [fn]) := by
        rw [show (part :: rest) ++ [fn] = [part] ++ (rest ++ [fn]) by simp,
          joinSegs_append, joinSegs_single]
      obtain ⟨nd, hfind, hct, htyp⟩ := ih [] (pre ++ "/" ++ part) fn ct (by simp [okForest])
        hrest hfn
      refine ⟨nd, ?_, hct, fun _ => htyp (by simp [findFileByPath])⟩
      have hppne : pre ++ "/" ++ part ≠ joinSegs pre ((part :: rest) ++ [fn]) := by
        apply path_single_ne hpart hlegq
        intro hcon
        simp at hcon
      have hguardt : jsStartsWith (joinSegs pre ((part :: rest) ++ [fn]))
          ((pre ++ "/" ++ part) ++ "/") = true := by
        rw [single_startsSlash hpart hlegq]
        rcases List.exists_cons_of_ne_nil (show rest ++ [fn] ≠ [] by simp) with ⟨c0, cs0, hc⟩
        exact ⟨c0, cs0, by simp [hc]⟩
      rw [upsertTree_nil_cons]
      simp only [findFileByPath]
      rw [if_neg hppne, if_pos (by simpa using hguardt)]
      rw [← hq] at hfind
      rw [hfind]
    | hcons m ty pp cs cc level ihc ihlevel =>
      intro pre fn ct hok hparts hfn
      obtain ⟨hm, hpp, _, hokc, hokr⟩ := okForest_cons.mp hok
      obtain ⟨hpart, hrest⟩ := legalSegs_cons hparts
      have hlegq : legalSegs ((part :: rest) ++ [fn]) = true :=
        legalSegs_append hparts (legalSegs_single hfn)
      have hq : joinSegs pre ((part :: rest) ++ [fn]) = joinSegs (pre ++ "/" ++ part) (rest ++ [fn]) := by
        rw [show (part :: rest) ++ [fn] = [part] ++ (rest ++ [fn]) by simp,
          joinSegs_append, joinSegs_single]
      have hppne : pp ≠ joinSegs pre ((part :: rest) ++ [fn]) := by
        rw [hpp]
        apply path_single_ne hm hlegq
        intro hcon
        simp at hcon
      by_cases hpred : m = part ∧ ty = NodeType.folder
      · obtain ⟨hm_eq, hty⟩ := hpred
        have hcur : pp = pre ++ "/" ++ part := by rw [hpp, hm_eq]
        obtain ⟨nd, hfind, hct, htyp⟩ := ih cs (pre ++ "/" ++ part) fn ct (hcur ▸ hokc) hrest hfn
        have hguardt : jsStartsWith (joinSegs pre ((part :: rest) ++ [fn])) (pp ++ "/") = true := by
          rw [hcur, single_startsSlash hpart hlegq]
          rcases List.exists_cons_of_ne_nil (show rest ++ [fn] ≠ [] by simp) with ⟨c0, cs0, hc⟩
          exact ⟨c0, cs0, by simp [hc]⟩
        refine ⟨nd, ?_, hct, ?_⟩
        · rw [upsertTree_cons_pos (by simp [hm_eq, hty])]
          simp only [findFileByPath]
          rw [if_neg hppne, if_pos (by rw [hty]; simpa using hguardt)]
          rw [← hq] at hfind
          rw [hfind]
        · intro hnone
          apply htyp
          simp only [findFileByPath] at hnone
          rw [if_neg hppne, if_pos (by rw [hty]; simpa using hguardt)] at hnone
          rw [← hq]
          cases hcs : findFileByPath cs (joinSegs pre ((part :: rest) ++ [fn])) with
          | none => rfl
          | some found => rw [hcs] at hnone; simp at hnone
      · have hb : (m == part && ty == NodeType.folder) = false := by
          rw [Bool.and_eq_false_iff]
          by_cases hmp : m = part
          · right
            have hf : ¬ty = NodeType.folder := fun hf => hpred ⟨hmp, hf⟩
            simpa using hf
          · left; simpa using hmp
        obtain ⟨nd, hfind, hct, htyp⟩ := ihlevel pre fn ct hokr hparts hfn
        have hguard : (decide (ty = NodeType.folder) &&
            jsStartsWith (joinSegs pre ((part :: rest) ++ [fn])) (pp ++ "/")) = false := by
          rw [Bool.and_eq_false_iff]
          by_cases hty : ty = NodeType.folder
          · right
            rw [Bool.eq_false_iff]
            intro hs
            rw [hpp] at hs
            obtain ⟨c0, cs0, hc⟩ := (single_startsSlash hm hlegq).mp hs
            simp at hc
            exact hpred ⟨hc.1.symm, hty⟩
          · left; simpa using hty
        refine ⟨nd, ?_, hct, ?_⟩
        · rw [upsertTree_cons_ne hb]
          simp only [findFileByPath]
          rw [if_neg hppne, if_neg (by rw [hguard]; simp)]
          exact hfind
        · intro hnone
          apply htyp
          simp only [findFileByPath] at hnone
          rw [if_neg hppne, if_neg (by rw [hguard]; simp)] at hnone
          exact hnone

theorem string_mk_data (s : String) : String.mk s.data = s := rfl

theorem splitChars_sf : ∀ (l t : List Char) (g : List Char) (gs : List (List Char)),
    '/' ∉ l → splitChars '/' t = g :: gs → splitChars '/' (l ++ t) = (l ++ g) :: gs := by
  intro l
  induction l with
  | nil => intro t g gs _ h; simpa using h
  | cons c l ih =>
    intro t g gs hnp h
    have hc : ¬c = '/' := fun hc => hnp (by simp [hc])
    rw [List.cons_append, splitChars, ih t g gs (fun hm => hnp (List.mem_cons_of_mem _ hm)) h]
    simp [hc]

theorem splitChars_segChars : ∀ segs : List String, legalSegs segs = true →
    splitChars '/' (segChars segs) = [] :: segs.map String.data := by
  intro segs
  induction segs with
  | nil => intro _; rfl
  | cons s rest ih =>
    intro hleg
    obtain ⟨hs, hrest⟩ := legalSegs_cons hleg
    rw [segChars, splitChars, splitChars_sf s.data (segChars rest) [] (rest.map String.data)
      (legalSeg_noslash hs) (ih hrest)]
    simp

theorem splitPath_joinSegs (segs : List String) (hleg : legalSegs segs = true) :
    splitPath (joinSegs "" segs) = segs := by
  unfold splitPath
  have hdata : (joinSegs "" segs).data = segChars segs := by
    rw [joinSegs_data]; rfl
  rw [hdata, splitChars_segChars segs hleg]
  rw [List.map_cons, List.map_map]
  have hmk : (String.mk ∘ String.data) = id := by
    funext s; rfl
  rw [hmk, List.map_id]
  rw [List.filter_cons]
  rw [if_neg (by simp)]
  rw [List.filter_eq_self]
  intro s hs
  have := List.all_eq_true.mp hleg s hs
  simpa using legalSeg_ne this

theorem addOrUpdate_eq_upsert (ts : List FileNode) (segs : List String) (fn ct : String)
    (hsegs : legalSegs segs = true) (hfn : legalSeg fn = true) :
    addOrUpdateFileByPath ts (joinSegs "" (segs ++ [fn])) ct = upsertTree ts "" segs fn ct := by
  simp only [addOrUpdateFileByPath]
  rw [splitPath_joinSegs _ (legalSegs_append hsegs (legalSegs_single hfn))]
  rw [List.getLast?_concat, List.dropLast_concat]

theorem delete_mem_name : ∀ (ts : List FileNode) (p : String) (m : FileNode),
    m ∈ deleteNodeByPath ts p → ∃ m0 ∈ ts, m.name = m0.name := by
  intro ts
  induction ts using forestInduction with
  | hnil => intro p m h; simp [deleteNodeByPath] at h
  | hcons n ty pp cs c rest ihc ihr =>
    intro p m h
    simp only [deleteNodeByPath] at h
    split_ifs at h with h1 h2
    · obtain ⟨m0, hm0, hname⟩ := ihr p m h
      exact ⟨m0, List.mem_cons_of_mem _ hm0, hname⟩
    · rcases List.mem_cons.mp h with h | h
      · exact ⟨FileNode.mk n ty pp cs c, List.mem_cons_self _ _, by simp [h]⟩
      · obtain ⟨m0, hm0, hname⟩ := ihr p m h
        exact ⟨m0, List.mem_cons_of_mem _ hm0, hname⟩
    · rcases List.mem_cons.mp h with h | h
      · exact ⟨FileNode.mk n ty pp cs c, List.mem_cons_self _ _, by simp [h]⟩
      · obtain ⟨m0, hm0, hname⟩ := ihr p m h
        exact ⟨m0, List.mem_cons_of_mem _ hm0, hname⟩

theorem okForest_delete : ∀ (ts : List FileNode) (pre p : String),
    okForest pre ts = true → okForest pre (deleteNodeByPath ts p) = true := by
  intro ts
  induction ts using forestInduction with
  | hnil => intro pre p _; simp [deleteNodeByPath, okForest]
  | hcons n ty pp cs c rest ihc ihr =>
    intro pre p hok
    obtain ⟨hn, hpp, huniq, hokc, hokr⟩ := okForest_cons.mp hok
    simp only [deleteNodeByPath]
    split_ifs with h1 h2
    · exact ihr pre p hokr
    · rw [okForest_cons]
      refine ⟨hn, hpp, ?_, ihc pp p hokc, ihr pre p hokr⟩
      intro m hm
      obtain ⟨m0, hm0, hname⟩ := delete_mem_name rest p m hm
      rw [hname]
      exact huniq m0 hm0
    · rw [okForest_cons]
      refine ⟨hn, hpp, ?_, hokc, ihr pre p hokr⟩
      intro m hm
      obtain ⟨m0, hm0, hname⟩ := delete_mem_name rest p m hm
      rw [hname]
      exact huniq m0 hm0

theorem find_memPath : ∀ (ts : List FileNode) (pre : String) (s : String) (srest : List String),
    okForest pre ts = true → legalSegs (s :: srest) = true →
    (findFileByPath ts (joinSegs pre (s :: srest))).isSome = memPath ts (s :: srest) := by
  intro ts
  induction ts using forestInduction with
  | hnil => intro pre s srest _ _; simp [findFileByPath, memPath]
  | hcons m ty pp cs cc rest ihc ihr =>
    intro pre s srest hok hleg
    obtain ⟨hs, hsrest⟩ := legalSegs_cons hleg
    obtain ⟨hm, hpp, _, hokc, hokr⟩ := okForest_cons.mp hok
    by_cases hhit : m = s ∧ srest = []
    · obtain ⟨rfl, rfl⟩ := hhit
      have hpq : pp = joinSegs pre [m] := by rw [joinSegs_single]; exact hpp
      simp only [findFileByPath, memPath]
      rw [if_pos hpq]
      simp
    · have hpq : ¬pp = joinSegs pre (s :: srest) := by
        rw [hpp]
        apply path_single_ne hm hleg
        intro hcon
        rw [List.cons.injEq] at hcon
        exact hhit ⟨hcon.1, hcon.2.symm⟩
      by_cases hdesc : m = s ∧ ty = NodeType.folder ∧ srest ≠ []
      · obtain ⟨rfl, hty, hne⟩ := hdesc
        rcases List.exists_cons_of_ne_nil hne with ⟨u, us, rfl⟩
        have hguard : (decide (ty = NodeType.folder) &&
            jsStartsWith (joinSegs pre (m :: u :: us)) (pp ++ "/")) = true := by
          rw [Bool.and_eq_true]
          refine ⟨by simp [hty], ?_⟩
          rw [hpp, single_startsSlash hm hleg]
          exact ⟨u, us, rfl⟩
        have hrecomp : joinSegs pre (m :: u :: us) = joinSegs pp (u :: us) := by
          rw [hpp]
          have h3 := joinSegs_append [m] (u :: us) pre
          rw [joinSegs_single] at h3
          simpa using h3
        simp only [findFileByPath, memPath]
        rw [if_neg hpq, if_pos hguard]
        have hchild := ihc pp u us hokc hsrest
        rw [← hrecomp] at hchild
        cases hf : findFileByPath cs (joinSegs pre (m :: u :: us)) with
        | some found =>
          rw [hf] at hchild
          simp at hchild
          simp [hty, ← hchild]
        | none =>
          rw [hf] at hchild
          simp only [Option.isSome_none] at hchild
          have hrest2 := ihr pre m (u :: us) hokr hleg
          simp [hty, ← hchild, ← hrest2]
      · -- the head is neither the target nor on the target's route
        have hguard : (decide (ty = NodeType.folder) &&
            jsStartsWith (joinSegs pre (s :: srest)) (pp ++ "/")) = false := by
          rw [Bool.and_eq_false_iff]
          by_cases hty : ty = NodeType.folder
          · right
            rw [Bool.eq_false_iff]
            intro hst
            rw [hpp] at hst
            obtain ⟨c0, cs0, hc⟩ := (single_startsSlash hm hleg).mp hst
            rw [List.cons.injEq] at hc
            exact hdesc ⟨hc.1.symm, hty, by simp [hc.2]⟩
          · left; simpa using hty
        have hhead : (if srest.isEmpty then m == s
            else m == s && ty == NodeType.folder && memPath cs srest) = false := by
          cases srest with
          | nil => simp; intro hms; exact hhit ⟨hms, rfl⟩
          | cons u us =>
            simp only [List.isEmpty_cons]
            rw [if_neg (by simp)]
            rw [Bool.and_eq_false_iff, Bool.and_eq_false_iff]
            by_cases hms : m = s
            · by_cases hty : ty = NodeType.folder
              · exact absurd ⟨hms, hty, by simp⟩ hdesc
              · left; right; simpa using hty
            · left; left; simpa using hms
        simp only [findFileByPath, memPath]
        rw [if_neg hpq, if_neg (by rw [hguard]; simp), hhead]
        simp only [Bool.false_or]
        exact ihr pre s srest hokr hleg

theorem regionClosed_trivial (h : Heap) : regionClosed h.length h := by
  intro a o hget hna
  have : a < h.length := by
    by_contra hcon
    rw [List.getElem?_eq_none (by omega)] at hget
    exact Option.noConfusion hget
  omega

theorem getElem?_append_lt {h t : Heap} {b : Nat} (hb : b < h.length) :
    (h ++ t)[b]? = h[b]? := by
  rw [List.getElem?_append]
  rw [if_pos hb]

theorem regionClosed_append {n : Nat} {h : Heap} (x : HNode) (hc : regionClosed n h)
    (hk : ∀ k ∈ x.hkids, n ≤ k) : regionClosed n (h ++ [x]) := by
  intro a o hget hna k hkmem
  by_cases hab : a < h.length
  · rw [getElem?_append_lt hab] at hget
    exact hc a o hget hna k hkmem
  · by_cases hae : a = h.length
    · subst hae
      rw [List.getElem?_concat_length] at hget
      cases hget
      exact hk k hkmem
    · rw [List.getElem?_eq_none (by simp; omega)] at hget
      exact Option.noConfusion hget

theorem allocForest_spec : ∀ (ts : List FileNode) (h : Heap),
    h.length ≤ (allocForest h ts).1.length
    ∧ (∀ b, b < h.length → (allocForest h ts).1[b]? = h[b]?)
    ∧ (∀ a ∈ (allocForest h ts).2, h.length ≤ a ∧ a < (allocForest h ts).1.length)
    ∧ (∀ n, n ≤ h.length → regionClosed n h → regionClosed n (allocForest h ts).1) := by
  intro ts
  induction ts using forestInduction with
  | hnil => intro h; simp [allocForest]
  | hcons n ty p cs c rest ihc ihr =>
    intro h
    obtain ⟨hl1, hp1, hr1, hc1⟩ := ihc h
    have hlen2 : ((allocForest h cs).1 ++ [(⟨n, ty, p, c, (allocForest h cs).2⟩ : HNode)]).length =
        (allocForest h cs).1.length + 1 := by simp
    obtain ⟨hl3, hp3, hr3, hc3⟩ := ihr ((allocForest h cs).1 ++ [(⟨n, ty, p, c, (allocForest h cs).2⟩ : HNode)])
    simp only [allocForest]
    refine ⟨?_, ?_, ?_, ?_⟩
    · rw [hlen2] at hl3
      omega
    · intro b hb
      rw [hp3 b (by rw [hlen2]; omega), getElem?_append_lt (by omega), hp1 b hb]
    · intro a ha
      rcases List.mem_cons.mp ha with rfl | ha
      · constructor
        · omega
        · rw [hlen2] at hl3
          omega
      · obtain ⟨h5, h6⟩ := hr3 a ha
        rw [hlen2] at h5
        exact ⟨by omega, h6⟩
    · intro nn hnn hcl
      apply hc3 nn (by rw [hlen2]; omega)
      apply regionClosed_append _ (hc1 nn hnn hcl)
      intro k hk
      have := (hr1 k hk).1
      omega

theorem heapKids_ge {n : Nat} {h : Heap} {roots : List Nat} {loc : Option Nat}
    (hcl : regionClosed n h) (hroots : ∀ r ∈ roots, n ≤ r)
    (hloc : ∀ a, loc = some a → n ≤ a) : ∀ k ∈ heapKids h roots loc, n ≤ k := by
  intro k hk
  match loc with
  | none => exact hroots k hk
  | some a =>
    simp only [heapKids] at hk
    cases hget : h[a]? with
    | none => rw [hget] at hk; simp at hk
    | some o =>
      rw [hget] at hk
      exact hcl a o hget (hloc a rfl) k hk

theorem heapSetKids_preserve {h : Heap} {a : Nat} {ks : List Nat} {b : Nat} (hb : ¬b = a) :
    (heapSetKids h a ks)[b]? = h[b]? := by
  simp only [heapSetKids]
  cases h[a]? with
  | none => rfl
  | some o => rw [List.getElem?_set_ne (fun hc => hb hc.symm)]

theorem heapSetKids_length (h : Heap) (a : Nat) (ks : List Nat) :
    (heapSetKids h a ks).length = h.length := by
  simp only [heapSetKids]
  cases h[a]? with
  | none => rfl
  | some o => rw [List.length_set]

theorem heapSetKids_closed {n : Nat} {h : Heap} {a : Nat} {ks : List Nat}
    (hcl : regionClosed n h) (hks : ∀ k ∈ ks, n ≤ k) : regionClosed n (heapSetKids h a ks) := by
  simp only [heapSetKids]
  cases hget : h[a]? with
  | none => exact hcl
  | some o =>
    intro aa o' hget' hna k hk
    rw [List.getElem?_set] at hget'
    by_cases h1 : a = aa
    · subst h1
      rw [if_pos rfl] at hget'
      by_cases h2 : a < h.length
      · rw [if_pos h2] at hget'
        cases hget'
        exact hks k hk
      · rw [if_neg h2] at hget'
        exact Option.noConfusion hget'
    · rw [if_neg h1] at hget'
      exact hcl aa o' hget' hna k hk

theorem heapSetContent_preserve {h : Heap} {a : Nat} {c : String} {b : Nat} (hb : ¬b = a) :
    (heapSetContent h a c)[b]? = h[b]? := by
  simp only [heapSetContent]
  cases h[a]? with
  | none => rfl
  | some o => rw [List.getElem?_set_ne (fun hc => hb hc.symm)]

theorem upsertHeapWalk_spec : ∀ (parts : List String) (h : Heap) (roots : List Nat)
    (loc : Option Nat) (curPath : String) (n : Nat),
    n ≤ h.length → regionClosed n h → (∀ r ∈ roots, n ≤ r) → (∀ a, loc = some a → n ≤ a) →
    (∀ b, b < n → (upsertHeapWalk h roots loc curPath parts).1[b]? = h[b]?)
    ∧ n ≤ (upsertHeapWalk h roots loc curPath parts).1.length
    ∧ regionClosed n (upsertHeapWalk h roots loc curPath parts).1
    ∧ (∀ r ∈ (upsertHeapWalk h roots loc curPath parts).2.1, n ≤ r)
    ∧ (∀ a, (upsertHeapWalk h roots loc curPath parts).2.2.1 = some a → n ≤ a) := by
  intro parts
  induction parts with
  | nil =>
    intro h roots loc curPath n hn hcl hroots hloc
    refine ⟨?_, ?_, ?_, ?_, ?_⟩ <;> simp only [upsertHeapWalk]
    · exact fun b _ => trivial
    · exact hn
    · exact hcl
    · exact hroots
    · exact hloc
  | cons part rest ih =>
    intro h roots loc curPath n hn hcl hroots hloc
    simp only [upsertHeapWalk]
    cases hff : heapFindFolder h (heapKids h roots loc) part with
    | some fa =>
      have hfa : n ≤ fa := by
        have hmem := List.mem_of_find?_eq_some hff
        exact heapKids_ge hcl hroots hloc fa hmem
      exact ih h roots (some fa) (curPath ++ "/" ++ part) n hn hcl hroots
        (fun a ha => by cases ha; exact hfa)
    | none =>
      cases loc with
      | none =>
        have hcl1 : regionClosed n (h ++ [(⟨part, NodeType.folder, curPath ++ "/" ++ part, "", []⟩ : HNode)]) :=
          regionClosed_append _ hcl (by simp)
        obtain ⟨hp, hl, hc, hr, hlo⟩ := ih (h ++ [(⟨part, NodeType.folder, curPath ++ "/" ++ part, "", []⟩ : HNode)])
          (roots ++ [h.length]) (some h.length) (curPath ++ "/" ++ part) n (by simp; omega) hcl1
          (by intro r hr
              rcases List.mem_append.mp hr with hr | hr
              · exact hroots r hr
              · simp at hr; omega)
          (fun a ha => by cases ha; omega)
        refine ⟨?_, hl, hc, hr, hlo⟩
        intro b hb
        rw [hp b hb, getElem?_append_lt (by omega)]
      | some a =>
        have hken : ∀ k ∈ heapKids (h ++ [(⟨part, NodeType.folder, curPath ++ "/" ++ part, "", []⟩ : HNode)]) roots (some a) ++ [h.length], n ≤ k := by
          intro k hk
          rcases List.mem_append.mp hk with hk | hk
          · exact heapKids_ge (regionClosed_append _ hcl (by simp)) hroots
              (fun x hx => by cases hx; exact hloc a rfl) k hk
          · simp at hk; omega
        have hcl2 : regionClosed n (heapSetKids (h ++ [(⟨part, NodeType.folder, curPath ++ "/" ++ part, "", []⟩ : HNode)]) a
            (heapKids (h ++ [(⟨part, NodeType.folder, curPath ++ "/" ++ part, "", []⟩ : HNode)]) roots (some a) ++ [h.length])) :=
          heapSetKids_closed (regionClosed_append _ hcl (by simp)) hken
        obtain ⟨hp, hl, hc, hr, hlo⟩ := ih _ roots (some h.length) (curPath ++ "/" ++ part) n
          (by rw [heapSetKids_length]; simp; omega) hcl2 hroots (fun x hx => by cases hx; omega)
        refine ⟨?_, hl, hc, hr, hlo⟩
        intro b hb
        rw [hp b hb, heapSetKids_preserve (by have := hloc a rfl; omega), getElem?_append_lt (by omega)]

theorem upsertHeapFinal_preserve {h : Heap} {roots : List Nat} {loc : Option Nat}
    {curPath fileName content : String} {n : Nat}
    (hn : n ≤ h.length) (hcl : regionClosed n h) (hroots : ∀ r ∈ roots, n ≤ r)
    (hloc : ∀ a, loc = some a → n ≤ a) :
    ∀ b, b < n → (upsertHeapFinal h roots loc curPath fileName content).1[b]? = h[b]? := by
  intro b hb
  simp only [upsertHeapFinal]
  cases hff : List.find? (fun a => match h[a]? with
      | some o => o.hname == fileName
      | none => false) (heapKids h roots loc) with
  | some fa =>
    have hfa : n ≤ fa := heapKids_ge hcl hroots hloc fa (List.mem_of_find?_eq_some hff)
    exact heapSetContent_preserve (by omega)
  | none =>
    cases loc with
    | none => exact getElem?_append_lt (by omega)
    | some a =>
      rw [heapSetKids_preserve (by have := hloc a rfl; omega), getElem?_append_lt (by omega)]

theorem addOrUpdateFileByPathH_preserve (h : Heap) (ts : List FileNode) (path content : String) :
    ∀ b, b < h.length → (addOrUpdateFileByPathH h ts path content).1[b]? = h[b]? := by
  intro b hb
  obtain ⟨hl1, hp1, hr1, hc1⟩ := allocForest_spec ts h
  have hcl1 : regionClosed h.length (allocForest h ts).1 :=
    hc1 h.length (le_refl _) (regionClosed_trivial h)
  simp only [addOrUpdateFileByPathH]
  cases hlast : (splitPath path).getLast? with
  | none => exact hp1 b hb
  | some fileName =>
    obtain ⟨hwp, hwl, hwc, hwr, hwloc⟩ := upsertHeapWalk_spec (splitPath path).dropLast
      (allocForest h ts).1 (allocForest h ts).2 none "" h.length hl1 hcl1
      (fun r hr => (hr1 r hr).1) (fun a ha => Option.noConfusion ha)
    rw [upsertHeapFinal_preserve hwl hwc hwr hwloc b hb, hwp b hb, hp1 b hb]

theorem findHeapByPath_ge : ∀ (fuel : Nat) (h : Heap) (addrs : List Nat) (q : String) (n : Nat),
    regionClosed n h → (∀ a ∈ addrs, n ≤ a) →
    ∀ r, findHeapByPath fuel h addrs q = some r → n ≤ r := by
  intro fuel
  induction fuel using Nat.strong_induction_on with
  | _ fuel ihf =>
    intro h addrs q n
    induction addrs with
    | nil =>
      intro hcl _ r hr
      cases fuel with
      | zero => simp [findHeapByPath] at hr
      | succ fuel => simp [findHeapByPath] at hr
    | cons a rest ihr =>
      intro hcl haddrs r hr
      cases fuel with
      | zero => simp [findHeapByPath] at hr
      | succ fuel =>
        simp only [findHeapByPath] at hr
        cases hget : h[a]? with
        | none =>
          rw [hget] at hr
          exact ihr hcl (fun x hx => haddrs x (List.mem_cons_of_mem _ hx)) r hr
        | some o =>
          rw [hget] at hr
          have hr' : (if o.hpath = q then some a
              else if (decide (o.hntype = NodeType.folder) && jsStartsWith q (o.hpath ++ "/")) = true then
                match findHeapByPath fuel h o.hkids q with
                | some r0 => some r0
                | none => findHeapByPath (fuel + 1) h rest q
              else findHeapByPath (fuel + 1) h rest q) = some r := hr
          split_ifs at hr' with h1 h2
          · cases hr'
            exact haddrs a (List.mem_cons_self _ _)
          · cases hrec : findHeapByPath fuel h o.hkids q with
            | some r0 =>
              rw [hrec] at hr'
              cases hr'
              exact ihf fuel (by omega) h o.hkids q n hcl
                (fun k hk => hcl a o hget (haddrs a (List.mem_cons_self _ _)) k hk) r hrec
            | none =>
              rw [hrec] at hr'
              exact ihr hcl (fun x hx => haddrs x (List.mem_cons_of_mem _ hx)) r hr'
          · exact ihr hcl (fun x hx => haddrs x (List.mem_cons_of_mem _ hx)) r hr'

theorem addNodeToTreeH_char (h : Heap) (ts : List FileNode) (parentPath nodeName : String)
    (ty : NodeType) :
    (addNodeToTreeH h ts parentPath nodeName ty).1 = (allocForest h ts).1
    ∨ (∃ x : HNode, (addNodeToTreeH h ts parentPath nodeName ty).1 = (allocForest h ts).1 ++ [x])
    ∨ (∃ (x : HNode) (pa : Nat) (ks : List Nat), h.length ≤ pa ∧
        (addNodeToTreeH h ts parentPath nodeName ty).1 =
          heapSetKids ((allocForest h ts).1 ++ [x]) pa ks) := by
  obtain ⟨hl1, hp1, hr1, hc1⟩ := allocForest_spec ts h
  have hcl1 : regionClosed h.length (allocForest h ts).1 :=
    hc1 h.length (le_refl _) (regionClosed_trivial h)
  simp only [addNodeToTreeH]
  split
  · exact Or.inl rfl
  · split_ifs with hroot
    · exact Or.inr (Or.inl ⟨_, rfl⟩)
    · split
      · next pa hpar =>
        split
        · next po hpo =>
          split_ifs with hfold
          · refine Or.inr (Or.inr ⟨_, pa, _, ?_, rfl⟩)
            exact findHeapByPath_ge _ _ _ _ h.length hcl1 (fun a ha => (hr1 a ha).1) pa hpar
          · exact Or.inl rfl
        · exact Or.inl rfl
      · exact Or.inl rfl

theorem addNodeToTreeH_preserve (h : Heap) (ts : List FileNode) (parentPath nodeName : String)
    (ty : NodeType) : ∀ b, b < h.length →
    (addNodeToTreeH h ts parentPath nodeName ty).1[b]? = h[b]? := by
  intro b hb
  obtain ⟨hl1, hp1, hr1, hc1⟩ := allocForest_spec ts h
  rcases addNodeToTreeH_char h ts parentPath nodeName ty with hch | ⟨x, hch⟩ | ⟨x, pa, ks, hpa, hch⟩
  · rw [hch, hp1 b hb]
  · rw [hch, getElem?_append_lt (by omega), hp1 b hb]
  · rw [hch, heapSetKids_preserve (by omega), getElem?_append_lt (by omega), hp1 b hb]

theorem deleteNodeByPathH_preserve : ∀ (fuel : Nat) (addrs : List Nat) (h : Heap) (path : String),
    (∀ b, b < h.length → (deleteNodeByPathH fuel h addrs path).1[b]? = h[b]?)
    ∧ h.length ≤ (deleteNodeByPathH fuel h addrs path).1.length := by
  intro fuel
  induction fuel using Nat.strong_induction_on with
  | _ fuel ihf =>
    intro addrs
    induction addrs with
    | nil =>
      intro h path
      cases fuel with
      | zero => simp [deleteNodeByPathH]
      | succ fuel => simp [deleteNodeByPathH]
    | cons a rest ihr =>
      intro h path
      cases fuel with
      | zero => simp [deleteNodeByPathH]
      | succ fuel =>
        simp only [deleteNodeByPathH]
        split
        · exact ihr h path
        · rename_i o _
          split_ifs with h1 h2
          · exact ihr h path
          · dsimp only
            obtain ⟨hk1, hk2⟩ := ihf fuel (by omega) o.hkids h path
            obtain ⟨hr1, hr2⟩ := ihr ((deleteNodeByPathH fuel h o.hkids path).1 ++
              [(⟨o.hname, o.hntype, o.hpath, o.hcontent, (deleteNodeByPathH fuel h o.hkids path).2⟩ : HNode)]) path
            constructor
            · intro b hb
              rw [hr1 b (by simp; omega), getElem?_append_lt (by omega), hk1 b hb]
            · have hlen : ((deleteNodeByPathH fuel h o.hkids path).1 ++
                  [(⟨o.hname, o.hntype, o.hpath, o.hcontent, (deleteNodeByPathH fuel h o.hkids path).2⟩ : HNode)]).length =
                  (deleteNodeByPathH fuel h o.hkids path).1.length + 1 := by simp
              omega
          · exact ihr h path

/-- Claim C4: `pushHistory` truncates the snapshot list to the prefix ending at
the cursor (`history.slice(0, historyIndex + 1)`), appends the new tree and
moves the cursor to the new last index, which then addresses the pushed tree;
`handleUndo` at a positive cursor decrements it and installs the snapshot at
the new cursor as the live tree; `handleUndo` at cursor `0` (or below) is a
no-op. -/
theorem pushHistory_handleUndo_spec (s : IDEState) (t : List FileNode) :
    ((pushHistory s t).history = s.history.take (s.historyIndex + 1).toNat ++ [t]
      ∧ (pushHistory s t).historyIndex = ((pushHistory s t).history.length : Int) - 1
      ∧ (pushHistory s t).projectStructure = some t
      ∧ jsIndex (pushHistory s t).history (pushHistory s t).historyIndex = some t)
    ∧ (0 < s.historyIndex →
        (handleUndo s).history = s.history
        ∧ (handleUndo s).historyIndex = s.historyIndex - 1
        ∧ (handleUndo s).projectStructure = jsIndex s.history (s.historyIndex - 1))
    ∧ (s.historyIndex ≤ 0 → handleUndo s = s) := by
  refine ⟨⟨rfl, ?_, rfl, ?_⟩, ?_, ?_⟩
  · simp [pushHistory]
  · simp only [pushHistory, jsIndex]
    have hlen : (s.history.take (s.historyIndex + 1).toNat ++ [t]).length =
        (s.history.take (s.historyIndex + 1).toNat).length + 1 := by simp
    rw [if_pos (by omega)]
    have htn : ((((s.history.take (s.historyIndex + 1).toNat ++ [t]).length : Int)) - 1).toNat =
        (s.history.take (s.historyIndex + 1).toNat).length := by
      rw [hlen]; omega
    rw [htn, List.getElem?_concat_length]
  · intro hpos
    simp only [handleUndo]
    rw [if_neg (by omega)]
    exact ⟨rfl, rfl, rfl⟩
  · intro hle
    simp only [handleUndo]
    rw [if_pos hle]

/-- Witness for C4 at a concrete state: one push then one undo behaves as
specified. -/
theorem pushHistory_handleUndo_spec_witness :
    (handleUndo ⟨some sampleTree, [[], sampleTree], 1, none⟩).history = [[], sampleTree]
    ∧ (handleUndo ⟨some sampleTree, [[], sampleTree], 1, none⟩).historyIndex = 0
    ∧ (handleUndo ⟨some sampleTree, [[], sampleTree], 1, none⟩).projectStructure =
        jsIndex [[], sampleTree] 0 := by
  have h := (pushHistory_handleUndo_spec ⟨some sampleTree, [[], sampleTree], 1, none⟩ []).2.1
    (by decide)
  exact ⟨h.1, h.2.1, h.2.2⟩

/-- Claim C1 (code defect): the source's `handleRedo` computes
`newIndex = historyIndex - 1` — it decrements the cursor instead of
incrementing it.  After one push and one undo (cursor `0`, history length
`2`), redo is permitted by the guard but drives the cursor to `-1` and the
live tree to `undefined`, instead of returning to cursor `1` with the pushed
tree: the claimed increment behaviour and the undo/redo round trip fail. -/
theorem redoDecrementsCursor :
    (handleRedo (handleUndo (pushHistory
        ⟨some [FileNode.mk "a" NodeType.file "/a" [] "1"],
         [[FileNode.mk "a" NodeType.file "/a" [] "1"]], 0, none⟩
        [FileNode.mk "a" NodeType.file "/a" [] "2"]))).historyIndex = -1
    ∧ (handleRedo (handleUndo (pushHistory
        ⟨some [FileNode.mk "a" NodeType.file "/a" [] "1"],
         [[FileNode.mk "a" NodeType.file "/a" [] "1"]], 0, none⟩
        [FileNode.mk "a" NodeType.file "/a" [] "2"]))).projectStructure = none
    ∧ (handleRedo (handleUndo (pushHistory
        ⟨some [FileNode.mk "a" NodeType.file "/a" [] "1"],
         [[FileNode.mk "a" NodeType.file "/a" [] "1"]], 0, none⟩
        [FileNode.mk "a" NodeType.file "/a" [] "2"]))).historyIndex ≠
      (handleUndo (pushHistory
        ⟨some [FileNode.mk "a" NodeType.file "/a" [] "1"],
         [[FileNode.mk "a" NodeType.file "/a" [] "1"]], 0, none⟩
        [FileNode.mk "a" NodeType.file "/a" [] "2"])).historyIndex + 1 := by
  refine ⟨rfl, rfl, by decide⟩

/-- Claim C10 (code defect): the cursor-bound half of the claimed invariant
fails.  After a push and an undo the state has `historyIndex = 0` with two
snapshots; the defective redo then produces `historyIndex = -1 < 0` and a live
tree of `undefined` — the operation does not re-establish
`0 ≤ historyIndex < history.length`. -/
theorem redoBreaksHistoryInvariant :
    (handleRedo (handleUndo (pushHistory
        ⟨some [FileNode.mk "b" NodeType.file "/b" [] "x"],
         [[FileNode.mk "b" NodeType.file "/b" [] "x"]], 0, none⟩
        [FileNode.mk "b" NodeType.file "/b" [] "y"]))).historyIndex < 0
    ∧ ¬(0 ≤ (handleRedo (handleUndo (pushHistory
        ⟨some [FileNode.mk "b" NodeType.file "/b" [] "x"],
         [[FileNode.mk "b" NodeType.file "/b" [] "x"]], 0, none⟩
        [FileNode.mk "b" NodeType.file "/b" [] "y"]))).historyIndex)
    ∧ (handleRedo (handleUndo (pushHistory
        ⟨some [FileNode.mk "b" NodeType.file "/b" [] "x"],
         [[FileNode.mk "b" NodeType.file "/b" [] "x"]], 0, none⟩
        [FileNode.mk "b" NodeType.file "/b" [] "y"]))).projectStructure = none := by
  refine ⟨by decide, by decide, rfl⟩

/-- Claim C2, counterexample to the rename half: renaming the protected path
`/src` through `handleRenameNode` (no AI task running) is *not* rejected with
a warning — the handler issues an AI refactoring request with an
informational toast; there is no protected-path check on the rename route. -/
theorem renameProtectedNotRejected :
    (handleRenameNode sampleTree false "/src" "source").1.isSome = true
    ∧ (handleRenameNode sampleTree false "/src" "source").2 =
        [⟨"Asking AI to rename and refactor imports...", "info"⟩] := by
  constructor <;>
    simp [handleRenameNode, findFileByPath, sampleTree, jsStartsWith, jsParentDir, nodeTypeText]

/-- Claim C2 (amended): a user-initiated delete whose request set resolves to
any node with a protected path is rejected by `handleRequestDelete` with a
single warning toast and no state change (no dialog, no tree/history/mirror
mutation); a rename, by contrast, is never checked against the protected set —
when no AI task is running and the node exists it is always forwarded to the
AI as a refactoring prompt with an informational toast, and while an AI task
is running it is rejected with a busy warning. -/
theorem protectedDeleteRejectedRenameForwarded :
    (∀ (s : IDEState) (struct : List FileNode) (paths : List String) (p : String) (nd : FileNode),
      s.projectStructure = some struct → p ∈ paths → findFileByPath struct p = some nd →
      protectedPaths.contains nd.path = true →
      (handleRequestDelete s paths).1 = s ∧
        ∃ nm, (handleRequestDelete s paths).2 =
          [⟨"Core item \"" ++ nm ++ "\" cannot be deleted.", "warning"⟩])
    ∧ (∀ (struct : List FileNode) (path newName : String) (nd : FileNode),
      findFileByPath struct path = some nd →
      (handleRenameNode struct false path newName).1.isSome = true ∧
        (handleRenameNode struct false path newName).2 =
          [⟨"Asking AI to rename and refactor imports...", "info"⟩])
    ∧ (∀ (struct : List FileNode) (path newName : String),
      (handleRenameNode struct true path newName).1 = none ∧
        (handleRenameNode struct true path newName).2 =
          [⟨"Please wait for the current AI task to complete.", "warning"⟩]) := by
  refine ⟨?_, ?_, ?_⟩
  · intro s struct paths p nd hs hp hfind hprot
    have hnd : nd ∈ paths.filterMap (findFileByPath struct) :=
      List.mem_filterMap.mpr ⟨p, hp, hfind⟩
    have hpne : ¬paths.isEmpty = true := by
      cases paths with
      | nil => simp at hp
      | cons a l => simp
    have hnne : ¬(paths.filterMap (findFileByPath struct)).isEmpty = true := by
      rw [List.isEmpty_iff]
      intro hcon
      rw [hcon] at hnd
      simp at hnd
    obtain ⟨ps, hist, idx, ndel⟩ := s
    simp only [IDEState.projectStructure] at hs
    subst hs
    simp only [handleRequestDelete]
    rw [if_neg hpne, if_neg hnne]
    cases hfp : (paths.filterMap (findFileByPath struct)).find?
        (fun n => protectedPaths.contains n.path) with
    | none =>
      exfalso
      have := List.find?_eq_none.mp hfp nd hnd
      exact this hprot
    | some y => exact ⟨rfl, y.name, rfl⟩
  · intro struct path newName nd hfind
    simp only [handleRenameNode]
    rw [if_neg (by simp)]
    rw [hfind]
    exact ⟨rfl, rfl⟩
  · intro struct path newName
    simp only [handleRenameNode]
    rw [if_pos trivial]
    exact ⟨rfl, rfl⟩

/-- Witness for the amended C2 at a concrete state: requesting deletion of the
protected `/src` leaves the state unchanged and emits the warning. -/
theorem protectedDeleteRejectedRenameForwarded_witness :
    (handleRequestDelete ⟨some sampleTree, [sampleTree], 0, none⟩ ["/src"]).1 =
        ⟨some sampleTree, [sampleTree], 0, none⟩
    ∧ ∃ nm, (handleRequestDelete ⟨some sampleTree, [sampleTree], 0, none⟩ ["/src"]).2 =
        [⟨"Core item \"" ++ nm ++ "\" cannot be deleted.", "warning"⟩] := by
  exact (protectedDeleteRejectedRenameForwarded).1
    ⟨some sampleTree, [sampleTree], 0, none⟩ sampleTree ["/src"] "/src"
    (FileNode.mk "src" NodeType.folder "/src"
      [FileNode.mk "App.tsx" NodeType.file "/src/App.tsx" [] "hello"] "")
    rfl (by simp)
    (by simp [findFileByPath, sampleTree])
    (by simp [protectedPaths])

/-- Claim C6, counterexample to the current-parent clause: moving
`/src/App.tsx` to its own current parent `/src` is *not* rejected — the
handler forwards an AI move request with an informational toast. -/
theorem moveToCurrentParentNotRejected :
    (handleMoveNode sampleTree false "/src/App.tsx" "/src").1.isSome = true
    ∧ (handleMoveNode sampleTree false "/src/App.tsx" "/src").2 =
        [⟨"Asking AI to move and refactor imports...", "info"⟩] := by
  have happ : ("/src" ++ "/") = "/src/" := by decide
  have hsw : jsStartsWith "/src/App.tsx" "/src/" = true := by decide
  have hfind : findFileByPath sampleTree "/src/App.tsx" =
      some (FileNode.mk "App.tsx" NodeType.file "/src/App.tsx" [] "hello") := by
    simp only [findFileByPath, sampleTree]
    rw [if_neg (by decide), if_pos (by rw [happ]; simp [hsw])]
    simp
  constructor <;>
  · simp only [handleMoveNode]
    rw [hfind]
    simp

/-- Claim C6 (amended): `handleMoveNode` rejects, with a warning toast and no
AI request (hence no tree change), any move whose target equals the source
and any move of a folder to a target inside its own subtree
(`target = source ++ "/" ++ r`); it also rejects everything with a busy
warning while an AI task is running.  A move to the source's *current parent*
is not rejected: it is forwarded to the AI. -/
theorem moveIntoOwnSubtreeRejected :
    (∀ (struct : List FileNode) (src tgt r : String) (nd : FileNode),
      findFileByPath struct src = some nd → nd.ntype = NodeType.folder →
      (tgt = src ∨ tgt = src ++ "/" ++ r) →
      handleMoveNode struct false src tgt =
        (none, [⟨"Invalid move operation: cannot move a folder into itself.", "warning"⟩]))
    ∧ (∀ (struct : List FileNode) (src : String) (nd : FileNode),
      findFileByPath struct src = some nd →
      handleMoveNode struct false src src =
        (none, [⟨"Invalid move operation: cannot move a folder into itself.", "warning"⟩]))
    ∧ (∀ (struct : List FileNode) (src tgt : String),
      handleMoveNode struct true src tgt =
        (none, [⟨"Please wait for the current AI task to complete.", "warning"⟩])) := by
  have hmain : ∀ (struct : List FileNode) (src tgt : String) (nd : FileNode),
      findFileByPath struct src = some nd →
      (src = tgt ∨ (nd.ntype = NodeType.folder ∧ jsStartsWith tgt (src ++ "/") = true)) →
      handleMoveNode struct false src tgt =
        (none, [⟨"Invalid move operation: cannot move a folder into itself.", "warning"⟩]) := by
    intro struct src tgt nd hfind hcond
    simp only [handleMoveNode]
    rw [if_neg (by simp), hfind]
    split
    · rename_i heq
      exact absurd heq (by simp)
    · rename_i node heq
      injection heq with hnd
      subst hnd
      split
      · rfl
      · rename_i hcontra
        exfalso
        apply hcontra
        rw [Bool.or_eq_true]
        rcases hcond with h | ⟨h1, h2⟩
        · exact Or.inl (decide_eq_true h)
        · refine Or.inr ?_
          rw [Bool.and_eq_true]
          exact ⟨decide_eq_true h1, h2⟩
  refine ⟨?_, ?_, ?_⟩
  · intro struct src tgt r nd hfind hty htgt
    apply hmain struct src tgt nd hfind
    rcases htgt with rfl | rfl
    · exact Or.inl rfl
    · refine Or.inr ⟨hty, ?_⟩
      rw [jsStartsWith_iff]
      rw [show src ++ "/" ++ r = (src ++ "/") ++ r by rw [String.append_assoc],
        String.data_append]
      exact List.prefix_append _ _
  · intro struct src nd hfind
    exact hmain struct src src nd hfind (Or.inl rfl)
  · intro struct src tgt
    simp only [handleMoveNode]
    rw [if_pos trivial]

/-- Witness for the amended C6 at a concrete state: moving the folder `/src`
into `/src/components` is rejected with the warning. -/
theorem moveIntoOwnSubtreeRejected_witness :
    handleMoveNode sampleTree false "/src" "/src/components" =
      (none, [⟨"Invalid move operation: cannot move a folder into itself.", "warning"⟩]) := by
  exact (moveIntoOwnSubtreeRejected).1 sampleTree "/src" "/src/components" "components"
    (FileNode.mk "src" NodeType.folder "/src"
      [FileNode.mk "App.tsx" NodeType.file "/src/App.tsx" [] "hello"] "")
    (by simp [findFileByPath, sampleTree]) rfl (Or.inr rfl)

/-- Claim C3: `applyAiChanges` applies every deletion to the tree before any
update (`aiFinalStructure` folds `deleteNodeByPath` first, then
`addOrUpdateFileByPath`), pushes the resulting tree to history exactly once
for a non-empty batch (so a cursor-at-end history grows by exactly one
entry), and for an empty batch performs no push, no mirror call and no toast
while the summary is still delivered as the assistant message; consequently a
batch that deletes and then updates the same canonical path leaves a file at
that path holding the update's content. -/
theorem applyAiChanges_spec (s : IDEState) (struct : List FileNode) (resp : AiResponse)
    (hs : s.projectStructure = some struct) :
    (resp.filesToUpdate = [] → resp.filesToDelete = [] →
      applyAiChanges s resp = (s, resp.summary, [], []))
    ∧ (resp.filesToUpdate ≠ [] ∨ resp.filesToDelete ≠ [] →
      (applyAiChanges s resp).1 = pushHistory s (aiFinalStructure struct resp)
      ∧ (applyAiChanges s resp).2.1 = resp.summary
      ∧ (s.historyIndex = (s.history.length : Int) - 1 → 0 ≤ s.historyIndex →
          (applyAiChanges s resp).1.history.length = s.history.length + 1))
    ∧ (∀ (sum c : String) (segs : List String) (fn : String),
      okForest "" struct = true → legalSegs segs = true → legalSeg fn = true →
      ∃ nd, findFileByPath
          (aiFinalStructure struct
            ⟨sum, [⟨joinSegs "" (segs ++ [fn]), c⟩], [⟨joinSegs "" (segs ++ [fn]), ""⟩]⟩)
          (joinSegs "" (segs ++ [fn])) = some nd
        ∧ nd.content = c ∧ nd.ntype = NodeType.file) := by
  obtain ⟨ps, hist, idx, ndel⟩ := s
  simp only [IDEState.projectStructure] at hs
  subst hs
  refine ⟨?_, ?_, ?_⟩
  · intro h1 h2
    simp [applyAiChanges, h1, h2]
  · intro hne
    have hcond : ¬((!(!resp.filesToDelete.isEmpty) && !(!resp.filesToUpdate.isEmpty)) = true) := by
      intro hcon
      simp only [Bool.not_not, Bool.and_eq_true] at hcon
      rw [List.isEmpty_iff, List.isEmpty_iff] at hcon
      rcases hne with h | h
      · exact h hcon.2
      · exact h hcon.1
    refine ⟨?_, ?_, ?_⟩
    · simp only [applyAiChanges]
      rw [if_neg hcond]
    · simp only [applyAiChanges]
      rw [if_neg hcond]
    · intro hidx hpos
      simp only [applyAiChanges]
      rw [if_neg hcond]
      simp only [pushHistory, IDEState.history, IDEState.historyIndex] at *
      rw [List.length_append]
      have htn : (idx + 1).toNat = hist.length := by omega
      rw [htn, List.take_length]
      simp
  · intro sum c segs fn hok hsegs hfn
    have hfinal : aiFinalStructure struct
        ⟨sum, [⟨joinSegs "" (segs ++ [fn]), c⟩], [⟨joinSegs "" (segs ++ [fn]), ""⟩]⟩ =
        addOrUpdateFileByPath (deleteNodeByPath struct (joinSegs "" (segs ++ [fn])))
          (joinSegs "" (segs ++ [fn])) c := by
      simp [aiFinalStructure]
    rw [hfinal, addOrUpdate_eq_upsert _ segs fn c hsegs hfn]
    have hokd : okForest "" (deleteNodeByPath struct (joinSegs "" (segs ++ [fn]))) = true :=
      okForest_delete struct "" _ hok
    obtain ⟨nd, hfind, hct, htyp⟩ := find_upsert segs
      (deleteNodeByPath struct (joinSegs "" (segs ++ [fn]))) "" fn c hokd hsegs hfn
    exact ⟨nd, hfind, hct, htyp (find_delete_none struct _)⟩

/-- Witness for C3 at a concrete state: the empty batch leaves the state
untouched and delivers the summary. -/
theorem applyAiChanges_spec_witness :
    applyAiChanges ⟨some sampleTree, [sampleTree], 0, none⟩ ⟨"nothing to do", [], []⟩ =
      (⟨some sampleTree, [sampleTree], 0, none⟩, "nothing to do", [], []) := by
  exact (applyAiChanges_spec ⟨some sampleTree, [sampleTree], 0, none⟩ sampleTree
    ⟨"nothing to do", [], []⟩ rfl).1 rfl rfl

/-- Claim C5, counterexample: `upsertFile` on a path already held by a
*folder* overwrites that folder object's `content` in place
(`findIndex(node => node.name === fileName)` matches nodes of either type),
so `find` afterwards returns a node of kind folder, not the claimed file
node. -/
theorem upsertOnFolderPathKeepsFolder :
    (findFileByPath
        (addOrUpdateFileByPath [FileNode.mk "a" NodeType.folder "/a" [] ""] "/a" "x")
        "/a").map FileNode.ntype = some NodeType.folder := by
  have hsp : splitPath "/a" = ["a"] := by decide
  simp only [addOrUpdateFileByPath, hsp]
  simp only [List.getLast?_cons, List.getLast?_nil, List.dropLast]
  simp [upsertTree, upsertFinal, replaceFirst, findFileByPath, List.find?]

/-- Claim C5 (amended): over a well-formed tree and a canonical path,
`addOrUpdateFileByPath` followed by `findFileByPath` at that path returns a
node carrying exactly the written content — a *file* node whenever no node
already sat at that path (if a folder already bears the path, its kind is
preserved and only its content field is set, per the counterexample);
`deleteNodeByPath` followed by `find` at the path or at any strict descendant
of it returns nothing; and deleting a non-existent path returns a tree
structurally equal to the input. -/
theorem upsert_delete_find_spec (ts : List FileNode) (segs : List String) (fn ct : String)
    (hok : okForest "" ts = true) (hsegs : legalSegs segs = true) (hfn : legalSeg fn = true) :
    (∃ nd, findFileByPath (addOrUpdateFileByPath ts (joinSegs "" (segs ++ [fn])) ct)
        (joinSegs "" (segs ++ [fn])) = some nd
      ∧ nd.content = ct
      ∧ (findFileByPath ts (joinSegs "" (segs ++ [fn])) = none → nd.ntype = NodeType.file))
    ∧ findFileByPath (deleteNodeByPath ts (joinSegs "" (segs ++ [fn])))
        (joinSegs "" (segs ++ [fn])) = none
    ∧ (∀ qs, legalSegs qs = true → qs ≠ [] →
        findFileByPath (deleteNodeByPath ts (joinSegs "" (segs ++ [fn])))
          (joinSegs "" ((segs ++ [fn]) ++ qs)) = none)
    ∧ (findFileByPath ts (joinSegs "" (segs ++ [fn])) = none →
        deleteNodeByPath ts (joinSegs "" (segs ++ [fn])) = ts) := by
  refine ⟨?_, ?_, ?_, ?_⟩
  · rw [addOrUpdate_eq_upsert ts segs fn ct hsegs hfn]
    exact find_upsert segs ts "" fn ct hok hsegs hfn
  · exact find_delete_none ts _
  · intro qs hqs hqsne
    exact find_delete_sub ts "" (segs ++ [fn]) qs hok
      (legalSegs_append hsegs (legalSegs_single hfn)) hqs (by simp) hqsne
  · exact delete_noop ts _

/-- Witness for the amended C5 on a one-file tree: updating and deleting
`/n` behave as specified. -/
theorem upsert_delete_find_spec_witness :
    (∃ nd, findFileByPath
        (addOrUpdateFileByPath [FileNode.mk "n" NodeType.file "/n" [] "old"]
          (joinSegs "" ([] ++ ["n"])) "new")
        (joinSegs "" ([] ++ ["n"])) = some nd
      ∧ nd.content = "new"
      ∧ (findFileByPath [FileNode.mk "n" NodeType.file "/n" [] "old"]
          (joinSegs "" ([] ++ ["n"])) = none → nd.ntype = NodeType.file))
    ∧ findFileByPath
        (deleteNodeByPath [FileNode.mk "n" NodeType.file "/n" [] "old"]
          (joinSegs "" ([] ++ ["n"])))
        (joinSegs "" ([] ++ ["n"])) = none := by
  have h := upsert_delete_find_spec [FileNode.mk "n" NodeType.file "/n" [] "old"] [] "n" "new"
    (by simp [okForest, (by decide : legalSeg "n" = true)]) (by decide) (by decide)
  exact ⟨h.1, h.2.1⟩

theorem string_empty_append (s : String) : "" ++ s = s := by
  apply String.ext
  rw [String.data_append]
  rfl

theorem joinSegs_ne_root {psegs : List String} (hne : psegs ≠ [])
    (hleg : legalSegs psegs = true) : joinSegs "" psegs ≠ "/" := by
  intro hcon
  have hdata := congrArg String.data hcon
  rw [joinSegs_data] at hdata
  rcases List.exists_cons_of_ne_nil hne with ⟨s, rest, rfl⟩
  obtain ⟨hs, _⟩ := legalSegs_cons hleg
  have hlen := congrArg List.length hdata
  simp [segChars] at hlen
  obtain ⟨hsd, _⟩ := hlen
  refine legalSeg_ne hs ?_
  apply String.ext
  have hd : s.data.length = 0 := hsd
  rw [List.length_eq_zero.mp hd]

/-- Claim C7: over a well-formed tree with canonical parent path and legal
name, `addNodeToTree` throws `DuplicateNameError` exactly when a node with
that name already exists under that parent (`memPath`), both for root-level
inserts (`parentPath = "/"`) and for nested parents; and whatever branch is
taken — including both error branches — the caller's object graph is never
written (heap addresses owned before the call are unchanged). -/
theorem addNode_duplicate_iff (ts : List FileNode) (psegs : List String) (nodeName : String)
    (ty : NodeType) (heap : Heap)
    (hok : okForest "" ts = true) (hpsegs : legalSegs psegs = true)
    (hname : legalSeg nodeName = true) :
    (addNodeToTree ts "/" nodeName ty = .error .duplicateName ↔ memPath ts [nodeName] = true)
    ∧ (psegs ≠ [] →
        (addNodeToTree ts (joinSegs "" psegs) nodeName ty = .error .duplicateName
          ↔ memPath ts (psegs ++ [nodeName]) = true))
    ∧ (∀ b, b < heap.length → ∀ parentPath,
        (addNodeToTreeH heap ts parentPath nodeName ty).1[b]? = heap[b]?) := by
  refine ⟨?_, ?_, ?_⟩
  · have hjoin : joinSegs "" [nodeName] = "/" ++ nodeName := by
      rw [joinSegs_single, string_empty_append]
    have hmem : (findFileByPath ts ("/" ++ nodeName)).isSome = memPath ts [nodeName] := by
      rw [← hjoin]
      exact find_memPath ts "" nodeName [] hok (legalSegs_single hname)
    simp only [addNodeToTree, reduceIte]
    cases hf : (findFileByPath ts ("/" ++ nodeName)).isSome with
    | true =>
      rw [hf] at hmem
      simp [← hmem]
    | false =>
      rw [hf] at hmem
      simp [← hmem]
  · intro hpne
    have hroot : ¬joinSegs "" psegs = "/" := joinSegs_ne_root hpne hpsegs
    have hjoin : joinSegs "" psegs ++ "/" ++ nodeName = joinSegs "" (psegs ++ [nodeName]) := by
      rw [joinSegs_append, joinSegs_single]
    rcases List.exists_cons_of_ne_nil hpne with ⟨s0, rest0, hps⟩
    have hcons : psegs ++ [nodeName] = s0 :: (rest0 ++ [nodeName]) := by rw [hps]; simp
    have hmem : (findFileByPath ts (joinSegs "" (psegs ++ [nodeName]))).isSome =
        memPath ts (psegs ++ [nodeName]) := by
      rw [hcons]
      exact find_memPath ts "" s0 (rest0 ++ [nodeName]) hok
        (by rw [← hcons]; exact legalSegs_append hpsegs (legalSegs_single hname))
    simp only [addNodeToTree]
    rw [if_neg hroot, hjoin]
    cases hf : (findFileByPath ts (joinSegs "" (psegs ++ [nodeName]))).isSome with
    | true =>
      rw [hf] at hmem
      simp [← hmem]
    | false =>
      rw [if_neg (by simp)]
      rw [hf] at hmem
      rw [← hmem]
      constructor
      · intro hcon
        exfalso
        rw [if_neg hroot] at hcon
        cases hpar : findFileByPath ts (joinSegs "" psegs) with
        | none =>
          rw [hpar] at hcon
          have hcon2 : Except.error AddNodeError.parentNotFound =
              (Except.error AddNodeError.duplicateName :
                Except AddNodeError (List FileNode)) := hcon
          injection hcon2 with hx
          exact AddNodeError.noConfusion hx
        | some parentNode =>
          rw [hpar] at hcon
          have hcon2 : (if parentNode.ntype = NodeType.folder then
              Except.ok (updateAtPath ts (joinSegs "" psegs) fun nd =>
                FileNode.mk nd.name nd.ntype nd.path
                  (nd.children ++ [FileNode.mk nodeName ty (joinSegs "" (psegs ++ [nodeName])) [] ""])
                  nd.content)
            else Except.error AddNodeError.parentNotFound) =
              Except.error AddNodeError.duplicateName := hcon
          by_cases hfold : parentNode.ntype = NodeType.folder
          · rw [if_pos hfold] at hcon2
            exact Except.noConfusion hcon2
          · rw [if_neg hfold] at hcon2
            injection hcon2 with hx
            exact AddNodeError.noConfusion hx
      · intro hcon
        exact absurd hcon (by simp)
  · intro b hb parentPath
    exact addNodeToTreeH_preserve heap ts parentPath nodeName ty b hb

/-- Witness for C7 on a one-file tree: adding the already-present root name
`a` is reported as a duplicate, matching `memPath`. -/
theorem addNode_duplicate_iff_witness :
    (addNodeToTree [FileNode.mk "a" NodeType.file "/a" [] ""] "/" "a" NodeType.file =
        .error .duplicateName ↔
      memPath [FileNode.mk "a" NodeType.file "/a" [] ""] ["a"] = true)
    ∧ (∀ b, b < ([] : Heap).length → ∀ parentPath,
        (addNodeToTreeH [] [FileNode.mk "a" NodeType.file "/a" [] ""] parentPath "a"
          NodeType.file).1[b]? = ([] : Heap)[b]?) := by
  have h := addNode_duplicate_iff [FileNode.mk "a" NodeType.file "/a" [] ""] ["d"] "a"
    NodeType.file [] (by simp [okForest, (by decide : legalSeg "a" = true)])
    (by decide) (by decide)
  exact ⟨h.1, h.2.2⟩

/-- Claim C8: `searchInProject` returns no results for an empty query; a
non-empty query whose built pattern fails to compile (the `new RegExp`
constructor throws) yields the empty result list rather than a crash or
partial results; and for non-regex queries the compiled pattern is the
regex-escaped query, wrapped in `\b` word-boundary anchors when the
whole-word option is set. -/
theorem search_empty_invalid_escaped (eng : RegexEngine) (nodes : List FileNode)
    (q : String) (opts : SearchOptions) :
    searchInProject eng nodes "" opts = []
    ∧ (q ≠ "" →
        eng.compile (buildPattern q opts.isRegex opts.isWholeWord) opts.isCaseSensitive = none →
        searchInProject eng nodes q opts = [])
    ∧ (opts.isRegex = false →
        buildPattern q opts.isRegex opts.isWholeWord =
          (if opts.isWholeWord then "\\b" ++ escapeRegex q ++ "\\b" else escapeRegex q)) := by
  refine ⟨?_, ?_, ?_⟩
  · simp [searchInProject]
  · intro hq hc
    simp only [searchInProject]
    rw [if_neg hq, hc]
  · intro hr
    rw [hr]
    simp only [buildPattern, Bool.not_false, Bool.true_and]
    cases opts.isWholeWord <;> simp

/-- Witness for C8: with an engine that rejects every pattern, a non-empty
query still yields the empty result list. -/
theorem search_empty_invalid_escaped_witness :
    searchInProject ⟨fun _ _ => none⟩ sampleTree "hello" ⟨false, false, false⟩ = [] := by
  exact (search_empty_invalid_escaped ⟨fun _ _ => none⟩ sampleTree "hello"
    ⟨false, false, false⟩).2.1 (by decide) rfl

/-- Claim C9: in the heap semantics, none of the three Tree Store mutators
writes to any object the caller owned before the call: `addOrUpdateFileByPath`
and `addNodeToTree` mutate only the fresh `JSON.parse(JSON.stringify(...))`
copy (including on their throwing paths), and `deleteNodeByPath` performs no
assignment at all — every pre-existing heap address reads back unchanged, so
the input tree is structurally intact after each operation. -/
theorem treeStore_input_graph_preserved (h : Heap) (ts : List FileNode)
    (path content parentPath nodeName : String) (ty : NodeType) (fuel : Nat)
    (addrs : List Nat) (b : Nat) (hb : b < h.length) :
    (addOrUpdateFileByPathH h ts path content).1[b]? = h[b]?
    ∧ (deleteNodeByPathH fuel h addrs path).1[b]? = h[b]?
    ∧ (addNodeToTreeH h ts parentPath nodeName ty).1[b]? = h[b]? :=
  ⟨addOrUpdateFileByPathH_preserve h ts path content b hb,
   (deleteNodeByPathH_preserve fuel addrs h path).1 b hb,
   addNodeToTreeH_preserve h ts parentPath nodeName ty b hb⟩

/-- Witness for C9 on a one-object heap: address 0 reads back unchanged after
each mutator. -/
theorem treeStore_input_graph_preserved_witness :
    (addOrUpdateFileByPathH [⟨"x", NodeType.file, "/x", "1", []⟩]
        [FileNode.mk "x" NodeType.file "/x" [] "1"] "/y" "2").1[0]? =
      ([⟨"x", NodeType.file, "/x", "1", []⟩] : Heap)[0]?
    ∧ (deleteNodeByPathH 2 [⟨"x", NodeType.file, "/x", "1", []⟩] [0] "/y").1[0]? =
      ([⟨"x", NodeType.file, "/x", "1", []⟩] : Heap)[0]?
    ∧ (addNodeToTreeH [⟨"x", NodeType.file, "/x", "1", []⟩]
        [FileNode.mk "x" NodeType.file "/x" [] "1"] "/" "y" NodeType.file).1[0]? =
      ([⟨"x", NodeType.file, "/x", "1", []⟩] : Heap)[0]? :=
  treeStore_input_graph_preserved [⟨"x", NodeType.file, "/x", "1", []⟩]
    [FileNode.mk "x" NodeType.file "/x" [] "1"] "/y" "2" "/" "y" NodeType.file 2 [0] 0
    (by decide)
